import Mathlib

/-!
Verification of the XY-cut reading-order sorter
(`pero_ocr/layout_engines/xy_cut.py`).

The embedding models:
* boxes as quadruples of natural-number coordinates `(x0, y0, x1, y1)`;
* `numpy` arrays as `List Nat`;
* `np.argsort` applied to a coordinate column as a stable sort of the
  box/identifier pairs by that coordinate (insertion sort by key);
* the shared output accumulator `res` of `recursive_xy_cut` as the list
  returned by each call (appends become concatenation in traversal order);
* the recursion itself with an explicit fuel parameter (the Python
  recursion has no structural termination argument; fuel sufficiency is
  proved separately).
-/

open scoped List

/-- An axis-aligned box `[x0, y0, x1, y1]` as built by `process_page`. -/
structure Box where
  x0 : Nat
  y0 : Nat
  x1 : Nat
  y1 : Nat
deriving DecidableEq

/-- A box is well formed when both extents are positive (`x0 < x1`, `y0 < y1`). -/
def Box.WF (b : Box) : Prop := b.x0 < b.x1 ∧ b.y0 < b.y1

instance (b : Box) : Decidable b.WF := by unfold Box.WF; infer_instance

/-- The start coordinate of a box on the given axis: `boxes[:, axis::2]` column 0. -/
def Box.coordStart (b : Box) (axis : Nat) : Nat := if axis = 0 then b.x0 else b.y0

/-- The end coordinate of a box on the given axis: `boxes[:, axis::2]` column 1. -/
def Box.coordEnd (b : Box) (axis : Nat) : Nat := if axis = 0 then b.x1 else b.y1

/-- A box covers pixel `p` on the given axis when `p` lies in the half-open
    interval `[start, end)`. -/
def covers (b : Box) (axis p : Nat) : Prop :=
  b.coordStart axis ≤ p ∧ p < b.coordEnd axis

instance (b : Box) (axis p : Nat) : Decidable (covers b axis p) := by
  unfold covers; infer_instance

/-- Key order used for `boxes[:, 1].argsort()`: compare vertical starts. -/
def yLE (a b : Box × Nat) : Prop := a.1.y0 ≤ b.1.y0

/-- Key order used for `boxes[:, 0].argsort()`: compare horizontal starts. -/
def xLE (a b : Box × Nat) : Prop := a.1.x0 ≤ b.1.x0

instance : DecidableRel yLE := fun _ _ => Nat.decLe _ _

instance : DecidableRel xLE := fun _ _ => Nat.decLe _ _

instance : IsTotal (Box × Nat) yLE := ⟨fun _ _ => Nat.le_total _ _⟩

instance : IsTotal (Box × Nat) xLE := ⟨fun _ _ => Nat.le_total _ _⟩

instance : IsTrans (Box × Nat) yLE := ⟨fun _ _ _ => Nat.le_trans⟩

instance : IsTrans (Box × Nat) xLE := ⟨fun _ _ _ => Nat.le_trans⟩

/-- `res[s:e] += 1` walking the array with position counter `p`
    (models the numpy slice increment in `projection_by_bboxes`). -/
def incRange (s e : Nat) : List Nat → Nat → List Nat
  | [], _ => []
  | v :: rest, p => (if s ≤ p ∧ p < e then v + 1 else v) :: incRange s e rest (p + 1)

/-- `length = np.max(boxes[:, axis::2])`: the largest coordinate (start or
    end) of any box on the given axis. -/
def projLen (boxes : List Box) (axis : Nat) : Nat :=
  boxes.foldl (fun m b => max m (max (b.coordStart axis) (b.coordEnd axis))) 0

/-- `XYCutRegionSorter.projection_by_bboxes`: the per-pixel projection
    histogram of a set of boxes along the given axis.  The array length is
    `np.max(boxes[:, axis::2])` and each box increments its half-open
    interval `[start, end)`. -/
def projection_by_bboxes (boxes : List Box) (axis : Nat) : List Nat :=
  boxes.foldl (fun res b => incRange (b.coordStart axis) (b.coordEnd axis) res 0)
    (List.replicate (projLen boxes axis) 0)

/-- Indices of the histogram whose value strictly exceeds `min_value`:
    `np.where(arr_values > min_value)[0]` (ascending). -/
def activeIndices (arr_values : List Nat) (min_value : Int) : List Nat :=
  (List.range arr_values.length).filter (fun p => decide (min_value < (arr_values.getD p 0 : Int)))

/-- `XYCutRegionSorter.split_projection_profile`: group the active indices
    into maximal runs, splitting wherever two consecutive active indices
    differ by more than `min_gap`; returns the runs as `(starts, ends)`
    with exclusive ends, or `none` when no index is active. -/
def split_projection_profile (arr_values : List Nat) (min_value min_gap : Int) :
    Option (List Nat × List Nat) :=
  match activeIndices arr_values min_value with
  | [] => none
  | i :: rest =>
    let bounds := ((i :: rest).zip rest).filter
      (fun pq => decide (min_gap < (pq.2 : Int) - (pq.1 : Int)))
    some (i :: bounds.map Prod.snd,
          bounds.map (fun pq => pq.1 + 1) ++ [(i :: rest).getLastD 0 + 1])

/-- The subset of the (sorted) pairs whose vertical start falls in the band
    `[r.1, r.2)`: `(r0 <= y_sorted_boxes[:, 1]) & (y_sorted_boxes[:, 1] < r1)`. -/
def bandChunk (ySorted : List (Box × Nat)) (r : Nat × Nat) : List (Box × Nat) :=
  ySorted.filter (fun p => decide (r.1 ≤ p.1.y0 ∧ p.1.y0 < r.2))

/-- The subset of the (x-sorted) pairs whose horizontal start falls in the
    column `[c.1, c.2)`. -/
def colChunk (xSorted : List (Box × Nat)) (c : Nat × Nat) : List (Box × Nat) :=
  xSorted.filter (fun p => decide (c.1 ≤ p.1.x0 ∧ p.1.x0 < c.2))

/-- One vertical band of `recursive_xy_cut`: re-sort the band horizontally,
    split its horizontal projection, and either emit the band (single run,
    in the y-sorted order `y_sorted_indices_chunk`) or recurse per column.
    The band's `boxes[:, 0].argsort()` is modeled as the stable
    `List.insertionSort xLE`; the default `np.argsort` leaves tie order
    unspecified, so only tie-order-insensitive consequences transfer to the
    program unconditionally (see `bandOutWith` for the abstracted sort). -/
def bandOut (recur : List (Box × Nat) → List Nat) (ySorted : List (Box × Nat))
    (r : Nat × Nat) : List Nat :=
  let chunk := bandChunk ySorted r
  let xChunk := List.insertionSort xLE chunk
  match split_projection_profile (projection_by_bboxes (xChunk.map Prod.fst) 0) 0 1 with
  | none => []
  | some (xs, xe) =>
    if xs.length = 1 then chunk.map Prod.snd
    else ((xs.zip xe).map (fun c => recur (colChunk xChunk c))).flatten

/-- `XYCutRegionSorter.recursive_xy_cut` with explicit fuel: sort the pairs
    by vertical start, split the vertical projection into bands, and process
    each band with `bandOut`.  `boxes[:, 1].argsort()` is modeled as the
    stable `List.insertionSort yLE`; the default `np.argsort` leaves tie
    order unspecified, so only tie-order-insensitive consequences transfer
    to the program unconditionally (see `xyCutFuelWith`). -/
def xyCutFuel : Nat → List (Box × Nat) → List Nat
  | 0, _ => []
  | fuel + 1, pairs =>
    let ySorted := List.insertionSort yLE pairs
    match split_projection_profile (projection_by_bboxes (ySorted.map Prod.fst) 1) 0 1 with
    | none => []
    | some (ys, ye) => ((ys.zip ye).map (bandOut (xyCutFuel fuel) ySorted)).flatten

/-- `recursive_xy_cut` at full fuel (the input length bounds the recursion
    depth; sufficiency is proved in the termination theorem). -/
def recursive_xy_cut (pairs : List (Box × Nat)) : List Nat :=
  xyCutFuel pairs.length pairs

/-- Model of `XYCutRegionSorter.process_page` restricted to its sorting
    core: regions are represented by their bounding boxes, and the
    category split/merge helpers (declared external collaborators by the
    spec) act as the identity because the category list is empty.  The
    `try/except` around the recursion cannot fire in the total model, so
    `res is None` does not arise; the fallback test `if not res` is the
    emptiness test on the produced index list. -/
def process_page (regions : List Box) : List Box :=
  if regions.length < 2 then regions
  else
    let pairs := regions.zip (List.range regions.length)
    let res := recursive_xy_cut pairs
    if res = [] then regions
    else res.map (fun i => regions.getD i ⟨0, 0, 0, 0⟩)

/-- Rearrange the box/identifier pairs into the order given by an output
    identifier sequence (used to state idempotence under re-sort). -/
def reorderByOut (pairs : List (Box × Nat)) (out : List Nat) : List (Box × Nat) :=
  out.filterMap (fun i => pairs.find? (fun p => p.2 == i))

/-- `bandOut` with the band's `boxes[:, 0].argsort()` abstracted into a
    parameter `sx`.  The default `kind` of `np.argsort` (quicksort/introsort)
    is documented as not stable: its contract only promises *some*
    permutation sorted by the key, leaving the order of equal keys
    unspecified.  `bandOut` instantiates `sx` with the stable
    `List.insertionSort xLE`; this parametrized variant lets us state which
    properties survive an arbitrary contract-conforming tie order. -/
def bandOutWith (sx : List (Box × Nat) → List (Box × Nat))
    (recur : List (Box × Nat) → List Nat) (ySorted : List (Box × Nat))
    (r : Nat × Nat) : List Nat :=
  let chunk := bandChunk ySorted r
  let xChunk := sx chunk
  match split_projection_profile (projection_by_bboxes (xChunk.map Prod.fst) 0) 0 1 with
  | none => []
  | some (xs, xe) =>
    if xs.length = 1 then chunk.map Prod.snd
    else ((xs.zip xe).map (fun c => recur (colChunk xChunk c))).flatten

/-- `xyCutFuel` with both `np.argsort` calls abstracted: `sy` stands for the
    vertical argsort `boxes[:, 1].argsort()` and `sx` for the horizontal one
    inside each band.  `xyCutFuel` is the instantiation at the stable sorts
    (see `xyCutFuelWith_insertionSort`). -/
def xyCutFuelWith (sy sx : List (Box × Nat) → List (Box × Nat)) :
    Nat → List (Box × Nat) → List Nat
  | 0, _ => []
  | fuel + 1, pairs =>
    let ySorted := sy pairs
    match split_projection_profile (projection_by_bboxes (ySorted.map Prod.fst) 1) 0 1 with
    | none => []
    | some (ys, ye) =>
      ((ys.zip ye).map (bandOutWith sx (xyCutFuelWith sy sx fuel) ySorted)).flatten

/-- `recursive_xy_cut` with both argsorts abstracted. -/
def recursive_xy_cut_with (sy sx : List (Box × Nat) → List (Box × Nat))
    (pairs : List (Box × Nat)) : List Nat :=
  xyCutFuelWith sy sx pairs.length pairs

/-- A comparison sort that fulfils the `np.argsort` contract — the result is
    a permutation of the input sorted by the vertical key (proved in the C9
    counterexample) — but resolves ties in the reverse of the input order, a
    behaviour an unstable sort is allowed to exhibit. -/
def antiSortY (l : List (Box × Nat)) : List (Box × Nat) :=
  List.insertionSort yLE l.reverse

/-- The horizontal counterpart of `antiSortY`. -/
def antiSortX (l : List (Box × Nat)) : List (Box × Nat) :=
  List.insertionSort xLE l.reverse

/-! ### Projection histogram: length and pointwise characterization -/

theorem incRange_length (s e : Nat) :
    ∀ (l : List Nat) (p : Nat), (incRange s e l p).length = l.length
  | [], _ => rfl
  | _ :: rest, p => by simp [incRange, incRange_length s e rest (p + 1)]

theorem incRange_getD (s e : Nat) :
    ∀ (l : List Nat) (p k : Nat), k < l.length →
      (incRange s e l p).getD k 0 =
        l.getD k 0 + (if s ≤ p + k ∧ p + k < e then 1 else 0)
  | [], _, k, hk => by simp at hk
  | v :: rest, p, 0, _ => by
      simp [incRange]
      split <;> simp
  | v :: rest, p, k + 1, hk => by
      have := incRange_getD s e rest (p + 1) k (by simpa using Nat.lt_of_succ_lt_succ hk)
      simpa [incRange, Nat.add_comm, Nat.add_assoc, Nat.add_left_comm] using this

theorem le_foldl_max (f : Box → Nat) :
    ∀ (l : List Box) (a : Nat), a ≤ l.foldl (fun m b => max m (f b)) a
  | [], _ => Nat.le_refl _
  | b :: l, a =>
      Nat.le_trans (Nat.le_max_left a (f b)) (le_foldl_max f l (max a (f b)))

theorem foldl_max_mem (f : Box → Nat) :
    ∀ (l : List Box) (a : Nat) (b : Box), b ∈ l → f b ≤ l.foldl (fun m b => max m (f b)) a
  | [], _, _, hb => by simp at hb
  | c :: l, a, b, hb => by
      rcases List.mem_cons.mp hb with h | h
      · subst h
        exact Nat.le_trans (Nat.le_max_right a (f b)) (le_foldl_max f l _)
      · exact foldl_max_mem f l _ b h

theorem foldl_max_le (f : Box → Nat) :
    ∀ (l : List Box) (a M : Nat), a ≤ M → (∀ b ∈ l, f b ≤ M) →
      l.foldl (fun m b => max m (f b)) a ≤ M
  | [], _, _, ha, _ => ha
  | b :: l, a, M, ha, hl => by
      refine foldl_max_le f l _ M (Nat.max_le.mpr ⟨ha, hl b (List.mem_cons_self b l)⟩) ?_
      exact fun c hc => hl c (List.mem_cons_of_mem b hc)

theorem coord_le_projLen (boxes : List Box) (axis : Nat) (b : Box) (hb : b ∈ boxes) :
    b.coordStart axis ≤ projLen boxes axis ∧ b.coordEnd axis ≤ projLen boxes axis := by
  have h := foldl_max_mem (fun b => max (b.coordStart axis) (b.coordEnd axis)) boxes 0 b hb
  exact ⟨Nat.le_trans (Nat.le_max_left _ _) h, Nat.le_trans (Nat.le_max_right _ _) h⟩

theorem projection_foldl_length (axis : Nat) :
    ∀ (bs : List Box) (res : List Nat),
      (bs.foldl (fun res b => incRange (b.coordStart axis) (b.coordEnd axis) res 0) res).length =
        res.length
  | [], _ => rfl
  | b :: bs, res => by
      simpa [incRange_length] using
        projection_foldl_length axis bs (incRange (b.coordStart axis) (b.coordEnd axis) res 0)

theorem projection_length (boxes : List Box) (axis : Nat) :
    (projection_by_bboxes boxes axis).length = projLen boxes axis := by
  unfold projection_by_bboxes
  rw [projection_foldl_length, List.length_replicate]

theorem projection_getD (boxes : List Box) (axis : Nat) (k : Nat)
    (hk : k < projLen boxes axis) :
    (projection_by_bboxes boxes axis).getD k 0 =
      boxes.countP (fun b => decide (covers b axis k)) := by
  unfold projection_by_bboxes
  have main : ∀ (bs : List Box) (res : List Nat), k < res.length →
      (bs.foldl (fun res b => incRange (b.coordStart axis) (b.coordEnd axis) res 0) res).getD k 0 =
        res.getD k 0 + bs.countP (fun b => decide (covers b axis k)) := by
    intro bs
    induction bs with
    | nil => intro res _; simp
    | cons b bs ih =>
        intro res hres
        have hlen : k < (incRange (b.coordStart axis) (b.coordEnd axis) res 0).length := by
          rwa [incRange_length]
        have h1 := incRange_getD (b.coordStart axis) (b.coordEnd axis) res 0 k hres
        simp only [List.foldl_cons, ih _ hlen, h1, List.countP_cons, Nat.zero_add]
        by_cases hc : covers b axis k
        · simp [hc, covers] at *
          omega
        · have : ¬ (b.coordStart axis ≤ k ∧ k < b.coordEnd axis) := hc
          simp [hc, this]
  rw [main boxes _ (by simpa using hk)]
  simp

theorem projection_getD_pos (boxes : List Box) (axis : Nat) (k : Nat)
    (hk : k < projLen boxes axis) :
    0 < (projection_by_bboxes boxes axis).getD k 0 ↔ ∃ b ∈ boxes, covers b axis k := by
  rw [projection_getD boxes axis k hk, List.countP_pos_iff]
  simp

/-! ### Active indices -/

theorem mem_activeIndices (arr : List Nat) (mv : Int) (p : Nat) :
    p ∈ activeIndices arr mv ↔ p < arr.length ∧ mv < (arr.getD p 0 : Int) := by
  simp [activeIndices, List.mem_filter]

theorem activeIndices_pairwise (arr : List Nat) (mv : Int) :
    (activeIndices arr mv).Pairwise (· < ·) :=
  List.Pairwise.filter _ (List.pairwise_lt_range _)

/-- Membership in the active indices of a projection histogram: the pixel is
    inside range and covered by at least one box (for threshold `0`). -/
theorem mem_activeIndices_projection (boxes : List Box) (axis : Nat) (p : Nat) :
    p ∈ activeIndices (projection_by_bboxes boxes axis) 0 ↔
      p < projLen boxes axis ∧ ∃ b ∈ boxes, covers b axis p := by
  rw [mem_activeIndices, projection_length]
  constructor
  · rintro ⟨hp, hv⟩
    refine ⟨hp, (projection_getD_pos boxes axis p hp).mp ?_⟩
    exact_mod_cast hv
  · rintro ⟨hp, hb⟩
    refine ⟨hp, ?_⟩
    exact_mod_cast (projection_getD_pos boxes axis p hp).mpr hb

/-! ### The splitter as run grouping

`split_projection_profile` computes, via array arithmetic, the grouping of
the ascending active-index list into maximal runs separated by gaps larger
than `min_gap`.  `groupRuns` is the direct recursive formulation of that
grouping (carrying the current run start `s` and the last index seen `p`);
the two are proved equal and all structural facts are proved on
`groupRuns`. -/

/-- Adjacent active-index pairs whose difference exceeds `min_gap`
    (`arr_zero_intvl_start`/`arr_zero_intvl_end` of the source, as pairs). -/
def gapBounds (min_gap : Int) (idx : List Nat) : List (Nat × Nat) :=
  (idx.zip idx.tail).filter (fun pq => decide (min_gap < (pq.2 : Int) - (pq.1 : Int)))

/-- Recursive grouping of an ascending index list into runs: `s` is the
    current run's start, `p` the previous index; a difference above
    `min_gap` closes the current run at `p + 1`. -/
def groupRuns (min_gap : Int) : Nat → Nat → List Nat → List (Nat × Nat)
  | s, p, [] => [(s, p + 1)]
  | s, p, q :: rest =>
    if min_gap < (q : Int) - (p : Int) then (s, p + 1) :: groupRuns min_gap q q rest
    else groupRuns min_gap s q rest

theorem gapBounds_cons (mg : Int) (p q : Nat) (rest : List Nat) :
    gapBounds mg (p :: q :: rest) =
      (if mg < (q : Int) - (p : Int) then [(p, q)] else []) ++ gapBounds mg (q :: rest) := by
  unfold gapBounds
  simp only [List.tail_cons, List.zip_cons_cons, List.filter_cons]
  by_cases hg : mg < (q : Int) - (p : Int) <;> simp [hg]

theorem groupRuns_eq (mg : Int) :
    ∀ (rest : List Nat) (s p : Nat),
      groupRuns mg s p rest =
        (s :: (gapBounds mg (p :: rest)).map Prod.snd).zip
          ((gapBounds mg (p :: rest)).map (fun pq => pq.1 + 1) ++ [(p :: rest).getLastD 0 + 1])
  | [], s, p => by simp [groupRuns, gapBounds]
  | q :: rest, s, p => by
      simp only [groupRuns]
      by_cases hg : mg < (q : Int) - (p : Int)
      · rw [if_pos hg, gapBounds_cons, if_pos hg, groupRuns_eq mg rest q q]
        simp [List.getLastD_cons]
      · rw [if_neg hg, gapBounds_cons, if_neg hg, groupRuns_eq mg rest s q]
        simp [List.getLastD_cons]

theorem split_of_active (arr : List Nat) (mv mg : Int) (i : Nat) (rest : List Nat)
    (h : activeIndices arr mv = i :: rest) :
    split_projection_profile arr mv mg =
      some (i :: (gapBounds mg (i :: rest)).map Prod.snd,
            (gapBounds mg (i :: rest)).map (fun pq => pq.1 + 1) ++
              [(i :: rest).getLastD 0 + 1]) := by
  unfold split_projection_profile gapBounds
  rw [h]
  simp

theorem split_none_iff (arr : List Nat) (mv mg : Int) :
    split_projection_profile arr mv mg = none ↔ activeIndices arr mv = [] := by
  unfold split_projection_profile
  cases h : activeIndices arr mv <;> simp

theorem split_lengths (arr : List Nat) (mv mg : Int) (S E : List Nat)
    (hs : split_projection_profile arr mv mg = some (S, E)) :
    S.length = E.length ∧ S ≠ [] ∧ E ≠ [] := by
  cases h : activeIndices arr mv with
  | nil => rw [(split_none_iff arr mv mg).mpr h] at hs; cases hs
  | cons i rest =>
      rw [split_of_active arr mv mg i rest h] at hs
      cases hs
      simp

theorem split_zip_eq_groupRuns (arr : List Nat) (mv mg : Int) (i : Nat) (rest : List Nat)
    (h : activeIndices arr mv = i :: rest) (S E : List Nat)
    (hs : split_projection_profile arr mv mg = some (S, E)) :
    S.zip E = groupRuns mg i i rest := by
  rw [split_of_active arr mv mg i rest h] at hs
  cases hs
  exact (groupRuns_eq mg rest i i).symm

/-! ### Structural facts about `groupRuns` -/

theorem chain'_lt_head_le (p : Nat) (rest : List Nat)
    (h : List.Chain' (· < ·) (p :: rest)) : ∀ x ∈ rest, p < x := by
  have hp : (p :: rest).Pairwise (· < ·) :=
    (List.chain'_iff_pairwise (R := (· < · : Nat → Nat → Prop))).mp h
  exact (List.pairwise_cons.mp hp).1

theorem groupRuns_first (mg : Int) :
    ∀ (rest : List Nat) (s p : Nat), List.Chain' (· < ·) (p :: rest) →
      ∃ b tail, groupRuns mg s p rest = (s, b) :: tail ∧ p < b
  | [], s, p, _ => ⟨p + 1, [], rfl, Nat.lt_succ_self p⟩
  | q :: rest, s, p, hch => by
      have hpq : p < q := (List.chain'_cons.mp hch).1
      have hch' : List.Chain' (· < ·) (q :: rest) := (List.chain'_cons.mp hch).2
      simp only [groupRuns]
      by_cases hg : mg < (q : Int) - (p : Int)
      · exact ⟨p + 1, _, by rw [if_pos hg], Nat.lt_succ_self p⟩
      · obtain ⟨b, tail, hgr, hb⟩ := groupRuns_first mg rest s q hch'
        exact ⟨b, tail, by rw [if_neg hg, hgr], Nat.lt_trans hpq hb⟩

theorem groupRuns_starts_lower (mg : Int) :
    ∀ (rest : List Nat) (s p : Nat), s ≤ p → List.Chain' (· < ·) (p :: rest) →
      ∀ ab ∈ groupRuns mg s p rest, s ≤ ab.1
  | [], s, p, hsp, _, ab, hab => by
      simp [groupRuns] at hab; subst hab; exact Nat.le_refl s
  | q :: rest, s, p, hsp, hch, ab, hab => by
      have hpq : p < q := (List.chain'_cons.mp hch).1
      have hch' : List.Chain' (· < ·) (q :: rest) := (List.chain'_cons.mp hch).2
      simp only [groupRuns] at hab
      by_cases hg : mg < (q : Int) - (p : Int)
      · rw [if_pos hg] at hab
        rcases List.mem_cons.mp hab with h | h
        · subst h; exact Nat.le_refl s
        · have := groupRuns_starts_lower mg rest q q (Nat.le_refl q) hch' ab h
          omega
      · rw [if_neg hg] at hab
        exact groupRuns_starts_lower mg rest s q (Nat.le_trans hsp (Nat.le_of_lt hpq)) hch' ab hab

theorem groupRuns_lt (mg : Int) :
    ∀ (rest : List Nat) (s p : Nat), s ≤ p → List.Chain' (· < ·) (p :: rest) →
      ∀ ab ∈ groupRuns mg s p rest, ab.1 < ab.2
  | [], s, p, hsp, _, ab, hab => by
      simp [groupRuns] at hab; subst hab; exact Nat.lt_succ_of_le hsp
  | q :: rest, s, p, hsp, hch, ab, hab => by
      have hpq : p < q := (List.chain'_cons.mp hch).1
      have hch' : List.Chain' (· < ·) (q :: rest) := (List.chain'_cons.mp hch).2
      simp only [groupRuns] at hab
      by_cases hg : mg < (q : Int) - (p : Int)
      · rw [if_pos hg] at hab
        rcases List.mem_cons.mp hab with h | h
        · subst h; exact Nat.lt_succ_of_le hsp
        · exact groupRuns_lt mg rest q q (Nat.le_refl q) hch' ab h
      · rw [if_neg hg] at hab
        exact groupRuns_lt mg rest s q (Nat.le_trans hsp (Nat.le_of_lt hpq)) hch' ab hab

theorem groupRuns_pairwise (mg : Int) :
    ∀ (rest : List Nat) (s p : Nat), s ≤ p → List.Chain' (· < ·) (p :: rest) →
      (groupRuns mg s p rest).Pairwise (fun ab cd => ab.2 ≤ cd.1)
  | [], _, _, _, _ => by simp [groupRuns]
  | q :: rest, s, p, hsp, hch => by
      have hpq : p < q := (List.chain'_cons.mp hch).1
      have hch' : List.Chain' (· < ·) (q :: rest) := (List.chain'_cons.mp hch).2
      simp only [groupRuns]
      by_cases hg : mg < (q : Int) - (p : Int)
      · rw [if_pos hg]
        refine List.pairwise_cons.mpr ⟨?_, groupRuns_pairwise mg rest q q (Nat.le_refl q) hch'⟩
        intro cd hcd
        have := groupRuns_starts_lower mg rest q q (Nat.le_refl q) hch' cd hcd
        omega
      · rw [if_neg hg]
        exact groupRuns_pairwise mg rest s q (Nat.le_trans hsp (Nat.le_of_lt hpq)) hch'

theorem groupRuns_cover (mg : Int) :
    ∀ (rest : List Nat) (s p : Nat), s ≤ p → List.Chain' (· < ·) (p :: rest) →
      ∀ x ∈ p :: rest, ∃ ab ∈ groupRuns mg s p rest, ab.1 ≤ x ∧ x < ab.2
  | [], s, p, hsp, _, x, hx => by
      simp at hx; subst hx
      exact ⟨(s, x + 1), by simp [groupRuns], hsp, Nat.lt_succ_self x⟩
  | q :: rest, s, p, hsp, hch, x, hx => by
      have hpq : p < q := (List.chain'_cons.mp hch).1
      have hch' : List.Chain' (· < ·) (q :: rest) := (List.chain'_cons.mp hch).2
      simp only [groupRuns]
      by_cases hg : mg < (q : Int) - (p : Int)
      · rw [if_pos hg]
        rcases List.mem_cons.mp hx with h | h
        · subst h
          exact ⟨(s, x + 1), List.mem_cons_self _ _, hsp, Nat.lt_succ_self x⟩
        · obtain ⟨ab, hab, h1, h2⟩ := groupRuns_cover mg rest q q (Nat.le_refl q) hch' x h
          exact ⟨ab, List.mem_cons_of_mem _ hab, h1, h2⟩
      · rw [if_neg hg]
        have hsq : s ≤ q := Nat.le_trans hsp (Nat.le_of_lt hpq)
        rcases List.mem_cons.mp hx with h | h
        · subst h
          obtain ⟨b, tail, hgr, hb⟩ := groupRuns_first mg rest s q hch'
          exact ⟨(s, b), by rw [hgr]; exact List.mem_cons_self _ _,
            hsp, Nat.lt_trans hpq hb⟩
        · exact groupRuns_cover mg rest s q hsq hch' x h

theorem groupRuns_start_mem (mg : Int) :
    ∀ (rest : List Nat) (s p : Nat), ∀ ab ∈ groupRuns mg s p rest,
      ab.1 = s ∨ ab.1 ∈ rest
  | [], s, p, ab, hab => by simp [groupRuns] at hab; subst hab; left; rfl
  | q :: rest, s, p, ab, hab => by
      simp only [groupRuns] at hab
      by_cases hg : mg < (q : Int) - (p : Int)
      · rw [if_pos hg] at hab
        rcases List.mem_cons.mp hab with h | h
        · subst h; left; rfl
        · rcases groupRuns_start_mem mg rest q q ab h with h' | h'
          · right; rw [h']; exact List.mem_cons_self _ _
          · right; exact List.mem_cons_of_mem _ h'
      · rw [if_neg hg] at hab
        rcases groupRuns_start_mem mg rest s q ab hab with h' | h'
        · left; exact h'
        · right; exact List.mem_cons_of_mem _ h'

theorem groupRuns_end_mem (mg : Int) :
    ∀ (rest : List Nat) (s p : Nat), ∀ ab ∈ groupRuns mg s p rest,
      ab.2 = p + 1 ∨ ∃ x ∈ rest, ab.2 = x + 1
  | [], s, p, ab, hab => by simp [groupRuns] at hab; subst hab; left; rfl
  | q :: rest, s, p, ab, hab => by
      simp only [groupRuns] at hab
      by_cases hg : mg < (q : Int) - (p : Int)
      · rw [if_pos hg] at hab
        rcases List.mem_cons.mp hab with h | h
        · subst h; left; rfl
        · rcases groupRuns_end_mem mg rest q q ab h with h' | h'
          · right; exact ⟨q, List.mem_cons_self _ _, h'⟩
          · obtain ⟨x, hx, hx'⟩ := h'
            right; exact ⟨x, List.mem_cons_of_mem _ hx, hx'⟩
      · rw [if_neg hg] at hab
        rcases groupRuns_end_mem mg rest s q ab hab with h' | h'
        · right; exact ⟨q, List.mem_cons_self _ _, h'⟩
        · obtain ⟨x, hx, hx'⟩ := h'
          right; exact ⟨x, List.mem_cons_of_mem _ hx, hx'⟩

theorem groupRuns_start_gap (mg : Int) :
    ∀ (rest : List Nat) (s p : Nat), List.Chain' (· < ·) (p :: rest) →
      ∀ ab ∈ groupRuns mg s p rest, ab.1 = s ∨
        ∃ pr ∈ p :: rest, mg < (ab.1 : Int) - pr ∧ ∀ x ∈ p :: rest, x < ab.1 → x ≤ pr
  | [], s, p, _, ab, hab => by simp [groupRuns] at hab; subst hab; left; rfl
  | q :: rest, s, p, hch, ab, hab => by
      have hpq : p < q := (List.chain'_cons.mp hch).1
      have hch' : List.Chain' (· < ·) (q :: rest) := (List.chain'_cons.mp hch).2
      have hqle : ∀ x ∈ q :: rest, q ≤ x := by
        intro x hx
        rcases List.mem_cons.mp hx with h | h
        · exact h ▸ Nat.le_refl q
        · exact Nat.le_of_lt (chain'_lt_head_le q rest hch' x h)
      simp only [groupRuns] at hab
      by_cases hg : mg < (q : Int) - (p : Int)
      · rw [if_pos hg] at hab
        rcases List.mem_cons.mp hab with h | h
        · subst h; left; rfl
        · rcases groupRuns_start_gap mg rest q q hch' ab h with h' | h'
          · right
            refine ⟨p, List.mem_cons_self _ _, by rw [h']; exact hg, ?_⟩
            intro x hx hxlt
            rcases List.mem_cons.mp hx with hh | hh
            · exact hh ▸ Nat.le_refl p
            · have := hqle x hh; rw [h'] at hxlt; omega
          · obtain ⟨pr, hpr, hgap, hmax⟩ := h'
            right
            refine ⟨pr, List.mem_cons_of_mem _ hpr, hgap, ?_⟩
            intro x hx hxlt
            rcases List.mem_cons.mp hx with hh | hh
            · have := hqle pr hpr; omega
            · exact hmax x hh hxlt
      · rw [if_neg hg] at hab
        rcases groupRuns_start_gap mg rest s q hch' ab hab with h' | h'
        · left; exact h'
        · obtain ⟨pr, hpr, hgap, hmax⟩ := h'
          right
          refine ⟨pr, List.mem_cons_of_mem _ hpr, hgap, ?_⟩
          intro x hx hxlt
          rcases List.mem_cons.mp hx with hh | hh
          · have := hqle pr hpr; omega
          · exact hmax x hh hxlt

/-! ### Facts about the splitter's output runs -/

theorem activeIndices_chain' (arr : List Nat) (mv : Int) :
    List.Chain' (· < ·) (activeIndices arr mv) :=
  (activeIndices_pairwise arr mv).chain'

theorem split_runs_eq_groupRuns (arr : List Nat) (mv mg : Int) (S E : List Nat)
    (hs : split_projection_profile arr mv mg = some (S, E)) :
    ∃ i rest, activeIndices arr mv = i :: rest ∧ S.zip E = groupRuns mg i i rest := by
  cases h : activeIndices arr mv with
  | nil => rw [(split_none_iff arr mv mg).mpr h] at hs; cases hs
  | cons i rest => exact ⟨i, rest, rfl, split_zip_eq_groupRuns arr mv mg i rest h S E hs⟩

theorem split_runs_cover (arr : List Nat) (mv mg : Int) (S E : List Nat)
    (hs : split_projection_profile arr mv mg = some (S, E)) :
    ∀ p ∈ activeIndices arr mv, ∃ ab ∈ S.zip E, ab.1 ≤ p ∧ p < ab.2 := by
  obtain ⟨i, rest, hidx, hzip⟩ := split_runs_eq_groupRuns arr mv mg S E hs
  have hch : List.Chain' (· < ·) (i :: rest) := hidx ▸ activeIndices_chain' arr mv
  intro p hp
  rw [hidx] at hp
  rw [hzip]
  exact groupRuns_cover mg rest i i (Nat.le_refl i) hch p hp

theorem split_runs_lt (arr : List Nat) (mv mg : Int) (S E : List Nat)
    (hs : split_projection_profile arr mv mg = some (S, E)) :
    ∀ ab ∈ S.zip E, ab.1 < ab.2 := by
  obtain ⟨i, rest, hidx, hzip⟩ := split_runs_eq_groupRuns arr mv mg S E hs
  have hch : List.Chain' (· < ·) (i :: rest) := hidx ▸ activeIndices_chain' arr mv
  rw [hzip]
  exact groupRuns_lt mg rest i i (Nat.le_refl i) hch

theorem split_runs_pairwise (arr : List Nat) (mv mg : Int) (S E : List Nat)
    (hs : split_projection_profile arr mv mg = some (S, E)) :
    (S.zip E).Pairwise (fun ab cd => ab.2 ≤ cd.1) := by
  obtain ⟨i, rest, hidx, hzip⟩ := split_runs_eq_groupRuns arr mv mg S E hs
  have hch : List.Chain' (· < ·) (i :: rest) := hidx ▸ activeIndices_chain' arr mv
  rw [hzip]
  exact groupRuns_pairwise mg rest i i (Nat.le_refl i) hch

theorem split_runs_active (arr : List Nat) (mv mg : Int) (S E : List Nat)
    (hs : split_projection_profile arr mv mg = some (S, E)) :
    ∀ ab ∈ S.zip E, ab.1 ∈ activeIndices arr mv ∧ ab.2 - 1 ∈ activeIndices arr mv := by
  obtain ⟨i, rest, hidx, hzip⟩ := split_runs_eq_groupRuns arr mv mg S E hs
  intro ab hab
  rw [hzip] at hab
  constructor
  · rcases groupRuns_start_mem mg rest i i ab hab with h | h
    · rw [hidx, h]; exact List.mem_cons_self _ _
    · rw [hidx]; exact List.mem_cons_of_mem _ h
  · rcases groupRuns_end_mem mg rest i i ab hab with h | h
    · rw [hidx, h]; simp
    · obtain ⟨x, hx, hx'⟩ := h
      rw [hidx, hx']; simpa using List.mem_cons_of_mem i hx

/-- Every active position strictly below a run's start is further than
    `min_gap` from it (run starts open fresh groups). -/
theorem split_runs_start_gap (arr : List Nat) (mv mg : Int) (S E : List Nat)
    (hs : split_projection_profile arr mv mg = some (S, E)) :
    ∀ ab ∈ S.zip E, ∀ x ∈ activeIndices arr mv, x < ab.1 → mg < (ab.1 : Int) - x := by
  obtain ⟨i, rest, hidx, hzip⟩ := split_runs_eq_groupRuns arr mv mg S E hs
  have hch : List.Chain' (· < ·) (i :: rest) := hidx ▸ activeIndices_chain' arr mv
  have hpw : (i :: rest).Pairwise (· < ·) := hidx ▸ activeIndices_pairwise arr mv
  intro ab hab x hx hxlt
  rw [hzip] at hab
  rw [hidx] at hx
  rcases groupRuns_start_gap mg rest i i hch ab hab with h | h
  · exfalso
    rcases List.mem_cons.mp hx with hh | hh
    · omega
    · have := (List.pairwise_cons.mp hpw).1 x hh; omega
  · obtain ⟨pr, _, hgap, hmax⟩ := h
    have := hmax x hx hxlt
    omega

theorem countP_le_one_of_pairwise_disjoint (l : List (Nat × Nat)) (p : Nat)
    (hpw : l.Pairwise (fun ab cd => ab.2 ≤ cd.1)) :
    l.countP (fun ab => decide (ab.1 ≤ p ∧ p < ab.2)) ≤ 1 := by
  induction l with
  | nil => simp
  | cons ab l ih =>
      have hpw' := List.pairwise_cons.mp hpw
      rw [List.countP_cons]
      by_cases hab : ab.1 ≤ p ∧ p < ab.2
      · have hz : l.countP (fun ab => decide (ab.1 ≤ p ∧ p < ab.2)) = 0 := by
          rw [List.countP_eq_zero]
          intro cd hcd
          have := hpw'.1 cd hcd
          rw [decide_eq_true_eq]
          omega
        rw [hz, if_pos (decide_eq_true hab)]
      · rw [if_neg (fun h => hab (of_decide_eq_true h))]
        simpa using ih hpw'.2

theorem split_runs_countP_le_one (arr : List Nat) (mv mg : Int) (S E : List Nat)
    (hs : split_projection_profile arr mv mg = some (S, E)) (p : Nat) :
    (S.zip E).countP (fun ab => decide (ab.1 ≤ p ∧ p < ab.2)) ≤ 1 :=
  countP_le_one_of_pairwise_disjoint _ p (split_runs_pairwise arr mv mg S E hs)

theorem split_runs_countP_eq_one (arr : List Nat) (mv mg : Int) (S E : List Nat)
    (hs : split_projection_profile arr mv mg = some (S, E)) (p : Nat)
    (hp : p ∈ activeIndices arr mv) :
    (S.zip E).countP (fun ab => decide (ab.1 ≤ p ∧ p < ab.2)) = 1 := by
  refine Nat.le_antisymm (split_runs_countP_le_one arr mv mg S E hs p) ?_
  obtain ⟨ab, hab, h1, h2⟩ := split_runs_cover arr mv mg S E hs p hp
  have : 0 < (S.zip E).countP (fun ab => decide (ab.1 ≤ p ∧ p < ab.2)) :=
    List.countP_pos_iff.mpr ⟨ab, hab, by simp [h1, h2]⟩
  omega

theorem split_runs_unique (arr : List Nat) (mv mg : Int) (S E : List Nat)
    (hs : split_projection_profile arr mv mg = some (S, E)) (p : Nat)
    (ab : Nat × Nat) (hab : ab ∈ S.zip E) (cd : Nat × Nat) (hcd : cd ∈ S.zip E)
    (h1 : ab.1 ≤ p ∧ p < ab.2) (h2 : cd.1 ≤ p ∧ p < cd.2) : ab = cd := by
  have hpw := split_runs_pairwise arr mv mg S E hs
  rw [List.pairwise_iff_getElem] at hpw
  obtain ⟨n, hn, hab'⟩ := List.mem_iff_getElem.mp hab
  obtain ⟨m, hm, hcd'⟩ := List.mem_iff_getElem.mp hcd
  rcases Nat.lt_trichotomy n m with h | h | h
  · have := hpw n m hn hm h; rw [hab', hcd'] at this; omega
  · subst h; exact hab'.symm.trans hcd'
  · have := hpw m n hm hn h; rw [hab', hcd'] at this; omega

/-! ### Adjacent pairs of a strictly ascending list -/

theorem zip_tail_lt (l : List Nat) (hpw : l.Pairwise (· < ·)) :
    ∀ xy ∈ l.zip l.tail, xy.1 < xy.2 := by
  intro xy hxy
  obtain ⟨n, hn, hxy'⟩ := List.mem_iff_getElem.mp hxy
  have hn2 : n < l.length ∧ n + 1 < l.length := by
    rw [List.length_zip, List.length_tail] at hn; omega
  rw [List.getElem_zip, List.getElem_tail] at hxy'
  rw [List.pairwise_iff_getElem] at hpw
  have := hpw n (n + 1) hn2.1 hn2.2 (Nat.lt_succ_self n)
  rw [← hxy']
  exact this

theorem zip_tail_adj (l : List Nat) (hpw : l.Pairwise (· < ·))
    (x y a : Nat) (h1 : (x, y) ∈ l.zip l.tail) (h2 : (a, y) ∈ l.zip l.tail) : a = x := by
  have hnd : l.Nodup := hpw.imp Nat.ne_of_lt
  obtain ⟨n, hn, h1'⟩ := List.mem_iff_getElem.mp h1
  obtain ⟨m, hm, h2'⟩ := List.mem_iff_getElem.mp h2
  have hn2 : n < l.length ∧ n + 1 < l.length := by
    rw [List.length_zip, List.length_tail] at hn; omega
  have hm2 : m < l.length ∧ m + 1 < l.length := by
    rw [List.length_zip, List.length_tail] at hm; omega
  rw [List.getElem_zip, List.getElem_tail] at h1' h2'
  have hx : l.get ⟨n, hn2.1⟩ = x := congrArg Prod.fst h1'
  have hy : l.get ⟨n + 1, hn2.2⟩ = y := congrArg Prod.snd h1'
  have ha : l.get ⟨m, hm2.1⟩ = a := congrArg Prod.fst h2'
  have hy' : l.get ⟨m + 1, hm2.2⟩ = y := congrArg Prod.snd h2'
  have hmm : n + 1 = m + 1 := hnd.getElem_inj_iff.mp (hy.trans hy'.symm)
  have hnm : n = m := by omega
  subst hnm
  exact ha.symm.trans hx

theorem exists_zip_of_mem_left (S E : List Nat) (h : S.length = E.length) (y : Nat)
    (hy : y ∈ S) : ∃ e, (y, e) ∈ S.zip E := by
  obtain ⟨n, hn, hy'⟩ := List.mem_iff_getElem.mp hy
  have hn' : n < (S.zip E).length := by rw [List.length_zip]; omega
  refine ⟨E.get ⟨n, by omega⟩, ?_⟩
  have h2 : (S.zip E)[n] = (y, E.get ⟨n, by omega⟩) := by
    rw [List.getElem_zip, hy', List.get_eq_getElem]
  rw [← h2]
  exact List.getElem_mem hn'

theorem foldl_max_congr (f g : Box → Nat) :
    ∀ (l : List Box) (a : Nat), (∀ b ∈ l, f b = g b) →
      l.foldl (fun m b => max m (f b)) a = l.foldl (fun m b => max m (g b)) a
  | [], _, _ => rfl
  | b :: l, a, h => by
      simp only [List.foldl_cons, h b (List.mem_cons_self b l)]
      exact foldl_max_congr f g l _ (fun c hc => h c (List.mem_cons_of_mem b hc))

/-- **C5.** Whenever the histogram has at least one active position (the
    split succeeds), `split_projection_profile` returns equal-length
    `starts`/`ends` whose zipped runs (a) contain every active position,
    (b) have an active start and an active last position `end - 1`,
    (c) place a boundary at an adjacent active pair exactly when the pair
    differs by more than `min_gap`, (d) keep adjacent active positions
    inside one run within `min_gap`, and (e) satisfy
    `starts[i] < ends[i] ≤ starts[i+1]` in ascending order. -/
theorem split_profile_boundary_exactness (arr : List Nat) (mv mg : Int)
    (S E : List Nat) (hs : split_projection_profile arr mv mg = some (S, E)) :
    S.length = E.length ∧
    (∀ p, p < arr.length → mv < (arr.getD p 0 : Int) →
      ∃ ab ∈ S.zip E, ab.1 ≤ p ∧ p < ab.2) ∧
    (∀ ab ∈ S.zip E,
      (ab.1 < arr.length ∧ mv < (arr.getD ab.1 0 : Int)) ∧
      (ab.2 - 1 < arr.length ∧ mv < (arr.getD (ab.2 - 1) 0 : Int))) ∧
    (∀ xy ∈ (activeIndices arr mv).zip (activeIndices arr mv).tail,
      (mg < (xy.2 : Int) - (xy.1 : Int) ↔ xy.1 + 1 ∈ E ∧ xy.2 ∈ S)) ∧
    (∀ xy ∈ (activeIndices arr mv).zip (activeIndices arr mv).tail,
      ∀ ab ∈ S.zip E, ab.1 ≤ xy.1 → xy.2 < ab.2 → (xy.2 : Int) - (xy.1 : Int) ≤ mg) ∧
    (∀ ab ∈ S.zip E, ab.1 < ab.2) ∧
    (S.zip E).Chain' (fun ab cd => ab.2 ≤ cd.1) := by
  obtain ⟨i, rest, hidx, _⟩ := split_runs_eq_groupRuns arr mv mg S E hs
  have hpw : (activeIndices arr mv).Pairwise (· < ·) := activeIndices_pairwise arr mv
  have hSE : split_projection_profile arr mv mg =
      some (i :: (gapBounds mg (i :: rest)).map Prod.snd,
            (gapBounds mg (i :: rest)).map (fun pq => pq.1 + 1) ++
              [(i :: rest).getLastD 0 + 1]) := split_of_active arr mv mg i rest hidx
  rw [hs] at hSE
  have hpair := Option.some.inj hSE
  have hSf : S = i :: (gapBounds mg (i :: rest)).map Prod.snd := congrArg Prod.fst hpair
  have hEf : E = (gapBounds mg (i :: rest)).map (fun pq => pq.1 + 1) ++
      [(i :: rest).getLastD 0 + 1] := congrArg Prod.snd hpair
  refine ⟨(split_lengths arr mv mg S E hs).1, ?_, ?_, ?_, ?_,
    split_runs_lt arr mv mg S E hs, (split_runs_pairwise arr mv mg S E hs).chain'⟩
  · intro p hp hv
    exact split_runs_cover arr mv mg S E hs p ((mem_activeIndices arr mv p).mpr ⟨hp, hv⟩)
  · intro ab hab
    obtain ⟨h1, h2⟩ := split_runs_active arr mv mg S E hs ab hab
    exact ⟨(mem_activeIndices arr mv _).mp h1, (mem_activeIndices arr mv _).mp h2⟩
  · intro xy hxy
    constructor
    · intro hg
      have hgb : xy ∈ gapBounds mg (i :: rest) := by
        rw [gapBounds, ← hidx]
        exact List.mem_filter.mpr ⟨hxy, decide_eq_true hg⟩
      constructor
      · rw [hEf]
        exact List.mem_append_left _ (List.mem_map.mpr ⟨xy, hgb, rfl⟩)
      · rw [hSf]
        exact List.mem_cons_of_mem _ (List.mem_map.mpr ⟨xy, hgb, rfl⟩)
    · rintro ⟨-, hS2⟩
      have hy_tail : xy.2 ∈ (activeIndices arr mv).tail := (List.of_mem_zip hxy).2
      rw [hSf] at hS2
      rcases List.mem_cons.mp hS2 with h | h
      · exfalso
        rw [hidx] at hy_tail hpw
        simp only [List.tail_cons] at hy_tail
        have := (List.pairwise_cons.mp hpw).1 xy.2 hy_tail
        omega
      · obtain ⟨pq, hpq, hpq2⟩ := List.mem_map.mp h
        have hpqz : pq ∈ (activeIndices arr mv).zip (activeIndices arr mv).tail := by
          have := List.mem_filter.mp (by rw [gapBounds] at hpq; exact hpq)
          rw [hidx]
          simpa using this.1
        have hgap : mg < (pq.2 : Int) - (pq.1 : Int) := by
          have := (List.mem_filter.mp (by rw [gapBounds] at hpq; exact hpq)).2
          exact of_decide_eq_true this
        have hxx : pq.1 = xy.1 := by
          have h1 : (xy.1, xy.2) ∈ (activeIndices arr mv).zip (activeIndices arr mv).tail := hxy
          have h2 : (pq.1, xy.2) ∈ (activeIndices arr mv).zip (activeIndices arr mv).tail := by
            rw [← hpq2]; exact hpqz
          exact zip_tail_adj (activeIndices arr mv) hpw xy.1 xy.2 pq.1 h1 h2
        rw [← hxx, ← hpq2]
        exact hgap
  · intro xy hxy ab hab h1 h2
    by_contra hgt
    push_neg at hgt
    have hS2 : xy.2 ∈ S := by
      have hg : mg < (xy.2 : Int) - (xy.1 : Int) := hgt
      have hgb : xy ∈ gapBounds mg (i :: rest) := by
        rw [gapBounds, ← hidx]
        exact List.mem_filter.mpr ⟨hxy, decide_eq_true hg⟩
      rw [hSf]
      exact List.mem_cons_of_mem _ (List.mem_map.mpr ⟨xy, hgb, rfl⟩)
    obtain ⟨e, hze⟩ := exists_zip_of_mem_left S E (split_lengths arr mv mg S E hs).1 xy.2 hS2
    have hlt_xy : xy.1 < xy.2 := zip_tail_lt (activeIndices arr mv) hpw xy hxy
    have hlt_run : (xy.2, e).1 < (xy.2, e).2 := split_runs_lt arr mv mg S E hs _ hze
    have heq : ab = (xy.2, e) :=
      split_runs_unique arr mv mg S E hs xy.2 ab hab (xy.2, e) hze
        ⟨by omega, h2⟩ ⟨Nat.le_refl _, hlt_run⟩
    have : ab.1 = xy.2 := by rw [heq]
    omega

theorem split_profile_boundary_exactness_witness :
    split_projection_profile [1, 1, 0, 0, 1] 0 1 = some ([0, 4], [2, 5]) ∧
    ([0, 4] : List Nat).length = ([2, 5] : List Nat).length :=
  ⟨by decide,
    (split_profile_boundary_exactness [1, 1, 0, 0, 1] 0 1 [0, 4] [2, 5] (by decide)).1⟩

/-- **C6.** The splitter returns `none` exactly when no histogram position
    strictly exceeds `min_value`; any successful split carries non-empty
    boundary sequences. -/
theorem split_profile_none_iff_no_active (arr : List Nat) (mv mg : Int) :
    (split_projection_profile arr mv mg = none ↔
      ∀ p, p < arr.length → (arr.getD p 0 : Int) ≤ mv) ∧
    (∀ S E, split_projection_profile arr mv mg = some (S, E) → S ≠ [] ∧ E ≠ []) := by
  constructor
  · rw [split_none_iff]
    constructor
    · intro h p hp
      by_contra hlt
      have hmem : p ∈ activeIndices arr mv :=
        (mem_activeIndices arr mv p).mpr ⟨hp, by omega⟩
      rw [h] at hmem
      cases hmem
    · intro h
      by_contra hne
      obtain ⟨p, hp⟩ := List.exists_mem_of_ne_nil _ hne
      obtain ⟨h1, h2⟩ := (mem_activeIndices arr mv p).mp hp
      have := h p h1
      omega
  · intro S E hs
    exact (split_lengths arr mv mg S E hs).2

theorem split_profile_none_iff_no_active_witness :
    ([0] : List Nat) ≠ [] ∧ ([1] : List Nat) ≠ [] :=
  (split_profile_none_iff_no_active [2] 0 1).2 [0] [1] (by decide)

/-- **C7.** For well-formed boxes the projection histogram has length equal
    to the maximum end coordinate on the chosen axis, and each entry counts
    exactly the boxes whose half-open interval `[start, end)` on that axis
    contains the position. -/
theorem projection_by_bboxes_exact_coverage (boxes : List Box) (axis : Nat)
    (hne : boxes ≠ []) (hax : axis = 0 ∨ axis = 1) (hwf : ∀ b ∈ boxes, b.WF) :
    (projection_by_bboxes boxes axis).length =
      boxes.foldl (fun m b => max m (b.coordEnd axis)) 0 ∧
    ∀ p, p < (projection_by_bboxes boxes axis).length →
      (projection_by_bboxes boxes axis).getD p 0 =
        (boxes.filter
          (fun b => decide (b.coordStart axis ≤ p ∧ p < b.coordEnd axis))).length := by
  have hlen : (projection_by_bboxes boxes axis).length = projLen boxes axis :=
    projection_length boxes axis
  constructor
  · rw [hlen]
    unfold projLen
    refine foldl_max_congr _ _ boxes 0 ?_
    intro b hb
    have hwfb := hwf b hb
    have : b.coordStart axis ≤ b.coordEnd axis := by
      unfold Box.coordStart Box.coordEnd
      rcases hwfb with ⟨h1, h2⟩
      split <;> omega
    omega
  · intro p hp
    rw [hlen] at hp
    rw [projection_getD boxes axis p hp, List.countP_eq_length_filter]
    have hpred : (fun b => decide (covers b axis p)) =
        (fun b => decide (b.coordStart axis ≤ p ∧ p < b.coordEnd axis)) := by
      funext b
      simp [covers]
    rw [hpred]

theorem projection_by_bboxes_exact_coverage_witness :
    ([⟨0, 0, 2, 1⟩] : List Box) ≠ [] ∧
    (projection_by_bboxes [⟨0, 0, 2, 1⟩] 0).length =
      ([⟨0, 0, 2, 1⟩] : List Box).foldl (fun m b => max m (b.coordEnd 0)) 0 :=
  ⟨by decide,
    (projection_by_bboxes_exact_coverage [⟨0, 0, 2, 1⟩] 0 (by decide)
      (Or.inl rfl) (by decide)).1⟩

/-! ### Chunks of the xy-cut recursion -/

/-- Every run start of a `(0, 1)`-split of a projection histogram is the
    start coordinate of one of the projected boxes: a covered position whose
    predecessor is not covered can only be a box start. -/
theorem split_run_start_is_box_start (boxes : List Box) (axis : Nat) (S E : List Nat)
    (hs : split_projection_profile (projection_by_bboxes boxes axis) 0 1 = some (S, E)) :
    ∀ ab ∈ S.zip E, ∃ b ∈ boxes, b.coordStart axis = ab.1 := by
  intro ab hab
  have hact : ab.1 ∈ activeIndices (projection_by_bboxes boxes axis) 0 :=
    (split_runs_active _ 0 1 S E hs ab hab).1
  obtain ⟨hlt, b, hb, hcov⟩ := (mem_activeIndices_projection boxes axis ab.1).mp hact
  refine ⟨b, hb, ?_⟩
  by_contra hne
  have hblt : b.coordStart axis < ab.1 := Nat.lt_of_le_of_ne hcov.1 hne
  have hpos : 1 ≤ ab.1 := by omega
  have hcov' : covers b axis (ab.1 - 1) := ⟨by omega, by have := hcov.2; omega⟩
  have hact' : ab.1 - 1 ∈ activeIndices (projection_by_bboxes boxes axis) 0 :=
    (mem_activeIndices_projection boxes axis (ab.1 - 1)).mpr ⟨by omega, b, hb, hcov'⟩
  have := split_runs_start_gap _ 0 1 S E hs ab hab (ab.1 - 1) hact' (by omega)
  omega

/-- Chunk selection on an axis (specializes to `bandChunk` for `axis = 1`
    and `colChunk` for `axis = 0`). -/
def axisChunk (axis : Nat) (pairs : List (Box × Nat)) (r : Nat × Nat) :
    List (Box × Nat) :=
  pairs.filter (fun p => decide (r.1 ≤ p.1.coordStart axis ∧ p.1.coordStart axis < r.2))

theorem bandChunk_eq_axisChunk (ySorted : List (Box × Nat)) (r : Nat × Nat) :
    bandChunk ySorted r = axisChunk 1 ySorted r := rfl

theorem colChunk_eq_axisChunk (xSorted : List (Box × Nat)) (c : Nat × Nat) :
    colChunk xSorted c = axisChunk 0 xSorted c := rfl

/-- Each run of a projection split holds at least one pair of the projected
    list (the pair whose start coordinate equals the run's start). -/
theorem axisChunk_nonempty (pairs : List (Box × Nat)) (axis : Nat) (S E : List Nat)
    (hs : split_projection_profile (projection_by_bboxes (pairs.map Prod.fst) axis) 0 1 =
      some (S, E)) :
    ∀ ab ∈ S.zip E, ∃ p ∈ pairs, p.1.coordStart axis = ab.1 ∧ p ∈ axisChunk axis pairs ab := by
  intro ab hab
  obtain ⟨b, hb, hbs⟩ := split_run_start_is_box_start (pairs.map Prod.fst) axis S E hs ab hab
  obtain ⟨p, hp, hpb⟩ := List.mem_map.mp hb
  have hlt : ab.1 < ab.2 := split_runs_lt _ 0 1 S E hs ab hab
  refine ⟨p, hp, by rw [hpb, hbs], ?_⟩
  refine List.mem_filter.mpr ⟨hp, decide_eq_true ?_⟩
  rw [hpb, hbs]
  exact ⟨Nat.le_refl _, hlt⟩

/-- With at least two runs, every run's chunk is a non-empty *strict* subset
    of the pair list (the strict-descent fact behind termination). -/
theorem axisChunk_strict (pairs : List (Box × Nat)) (axis : Nat) (S E : List Nat)
    (hs : split_projection_profile (projection_by_bboxes (pairs.map Prod.fst) axis) 0 1 =
      some (S, E)) (h2 : 2 ≤ S.length) :
    ∀ ab ∈ S.zip E, axisChunk axis pairs ab ≠ [] ∧
      (axisChunk axis pairs ab).length < pairs.length := by
  intro ab hab
  obtain ⟨p, hp, hps, hpc⟩ := axisChunk_nonempty pairs axis S E hs ab hab
  refine ⟨List.ne_nil_of_mem hpc, ?_⟩
  have hzlen : (S.zip E).length = S.length := by
    rw [List.length_zip, (split_lengths _ 0 1 S E hs).1, Nat.min_self]
  obtain ⟨n, hn, habn⟩ := List.mem_iff_getElem.mp hab
  have hm : ∃ m, m < (S.zip E).length ∧ m ≠ n := by
    rcases Nat.eq_zero_or_pos n with h | h
    · exact ⟨1, by omega, by omega⟩
    · exact ⟨0, by omega, by omega⟩
  obtain ⟨m, hmlt, hmn⟩ := hm
  set cd := (S.zip E).get ⟨m, hmlt⟩ with hcd
  have hcdz : cd ∈ S.zip E := by rw [hcd]; exact List.getElem_mem hmlt
  obtain ⟨q, hq, hqs, hqc⟩ := axisChunk_nonempty pairs axis S E hs cd hcdz
  have hcdlt : cd.1 < cd.2 := split_runs_lt _ 0 1 S E hs cd hcdz
  have hpw := split_runs_pairwise _ 0 1 S E hs
  rw [List.pairwise_iff_getElem] at hpw
  have hdisj : cd.2 ≤ ab.1 ∨ ab.2 ≤ cd.1 := by
    rcases Nat.lt_trichotomy m n with h | h | h
    · left; have := hpw m n hmlt hn h; rw [habn] at this; exact this
    · exact absurd h hmn
    · right; have := hpw n m hn hmlt h; rw [habn] at this; exact this
  have hqnot : ¬ (ab.1 ≤ q.1.coordStart axis ∧ q.1.coordStart axis < ab.2) := by
    rcases hdisj with h | h <;> omega
  refine Nat.lt_of_le_of_ne (List.length_filter_le _ _) ?_
  intro hlen
  have hall := (List.filter_length_eq_length).mp hlen
  have := hall q hq
  rw [decide_eq_true_eq] at this
  exact hqnot this

/-! ### Counting pairs across chunks -/

theorem count_map_snd (a : Nat) : ∀ (l : List (Box × Nat)),
    (l.map Prod.snd).count a = l.countP (fun p => p.2 == a)
  | [] => rfl
  | p :: l => by
      rw [List.map_cons, List.count_cons, List.countP_cons, count_map_snd a l]

theorem sum_map_add (f g : Nat × Nat → Nat) : ∀ (R : List (Nat × Nat)),
    (R.map (fun r => f r + g r)).sum = (R.map f).sum + (R.map g).sum
  | [] => rfl
  | r :: R => by
      simp only [List.map_cons, List.sum_cons, sum_map_add f g R]
      omega

theorem sum_map_le (f g : Nat × Nat → Nat) : ∀ (R : List (Nat × Nat)),
    (∀ r ∈ R, f r ≤ g r) → (R.map f).sum ≤ (R.map g).sum
  | [], _ => Nat.le_refl _
  | r :: R, h => by
      simp only [List.map_cons, List.sum_cons]
      exact Nat.add_le_add (h r (List.mem_cons_self r R))
        (sum_map_le f g R (fun c hc => h c (List.mem_cons_of_mem r hc)))

theorem sum_map_congr (f g : Nat × Nat → Nat) : ∀ (R : List (Nat × Nat)),
    (∀ r ∈ R, f r = g r) → (R.map f).sum = (R.map g).sum
  | [], _ => rfl
  | r :: R, h => by
      simp only [List.map_cons, List.sum_cons, h r (List.mem_cons_self r R)]
      rw [sum_map_congr f g R (fun c hc => h c (List.mem_cons_of_mem r hc))]

/-- The run membership predicate used to place a pair into a chunk. -/
def inRun (axis : Nat) (p : Box × Nat) (ab : Nat × Nat) : Bool :=
  decide (ab.1 ≤ p.1.coordStart axis ∧ p.1.coordStart axis < ab.2)

theorem axisChunk_countP (axis : Nat) (P : Box × Nat → Bool) (r : Nat × Nat)
    (l : List (Box × Nat)) :
    (axisChunk axis l r).countP P = l.countP (fun p => P p && inRun axis p r) := by
  have heq : axisChunk axis l r = l.filter (fun p => inRun axis p r) := rfl
  rw [heq, List.countP_filter]

theorem sum_map_zero : ∀ (R : List (Nat × Nat)), (R.map (fun _ => 0)).sum = 0
  | [] => rfl
  | _ :: R => by simp only [List.map_cons, List.sum_cons, sum_map_zero R]

theorem countP_eq_sum_map_ind (q : Nat × Nat → Bool) : ∀ (R : List (Nat × Nat)),
    R.countP q = (R.map (fun r => if q r then 1 else 0)).sum
  | [] => rfl
  | r :: R => by
      rw [List.countP_cons, List.map_cons, List.sum_cons, countP_eq_sum_map_ind q R]
      omega

theorem ind_sum_le (axis : Nat) (P : Box × Nat → Bool) (R : List (Nat × Nat))
    (p : Box × Nat) (h : R.countP (inRun axis p) ≤ 1) :
    (R.map (fun r => if P p && inRun axis p r then 1 else 0)).sum ≤
      (if P p then 1 else 0) := by
  by_cases hP : P p = true
  · have hcongr : ∀ r ∈ R, (if P p && inRun axis p r then 1 else 0) =
        (if inRun axis p r then 1 else 0) := by
      intro r _; rw [hP, Bool.true_and]
    rw [sum_map_congr _ _ R hcongr, if_pos hP, ← countP_eq_sum_map_ind]
    exact h
  · have hP' : P p = false := Bool.eq_false_iff.mpr hP
    have hcongr : ∀ r ∈ R, (if P p && inRun axis p r then 1 else 0) = 0 := by
      intro r _; rw [hP', Bool.false_and]; rfl
    rw [sum_map_congr _ _ R hcongr, sum_map_zero, hP']
    simp

theorem ind_sum_eq (axis : Nat) (P : Box × Nat → Bool) (R : List (Nat × Nat))
    (p : Box × Nat) (h : R.countP (inRun axis p) = 1) :
    (R.map (fun r => if P p && inRun axis p r then 1 else 0)).sum =
      (if P p then 1 else 0) := by
  by_cases hP : P p = true
  · have hcongr : ∀ r ∈ R, (if P p && inRun axis p r then 1 else 0) =
        (if inRun axis p r then 1 else 0) := by
      intro r _; rw [hP, Bool.true_and]
    rw [sum_map_congr _ _ R hcongr, if_pos hP, ← countP_eq_sum_map_ind]
    exact h
  · have hP' : P p = false := Bool.eq_false_iff.mpr hP
    have hcongr : ∀ r ∈ R, (if P p && inRun axis p r then 1 else 0) = 0 := by
      intro r _; rw [hP', Bool.false_and]; rfl
    rw [sum_map_congr _ _ R hcongr, sum_map_zero, hP']
    simp

theorem chunk_countP_cons (axis : Nat) (P : Box × Nat → Bool) (p : Box × Nat)
    (l : List (Box × Nat)) (R : List (Nat × Nat)) : ∀ r ∈ R,
      (axisChunk axis (p :: l) r).countP P =
        (axisChunk axis l r).countP P + (if P p && inRun axis p r then 1 else 0) := by
  intro r _
  rw [axisChunk_countP, axisChunk_countP, List.countP_cons]

theorem sum_countP_chunks_le (axis : Nat) (P : Box × Nat → Bool)
    (R : List (Nat × Nat)) :
    ∀ (l : List (Box × Nat)),
      (∀ p ∈ l, R.countP (inRun axis p) ≤ 1) →
      (R.map (fun r => (axisChunk axis l r).countP P)).sum ≤ l.countP P := by
  intro l
  induction l with
  | nil =>
      intro _
      have hz : ∀ r ∈ R, (axisChunk axis ([] : List (Box × Nat)) r).countP P = 0 :=
        fun r _ => rfl
      rw [sum_map_congr _ (fun _ => 0) R hz, sum_map_zero]
      simp
  | cons p l ih =>
      intro h
      rw [sum_map_congr _ _ R (chunk_countP_cons axis P p l R), sum_map_add,
        List.countP_cons]
      have h1 := ih (fun q hq => h q (List.mem_cons_of_mem p hq))
      have h2 := ind_sum_le axis P R p (h p (List.mem_cons_self p l))
      omega

theorem sum_countP_chunks_eq (axis : Nat) (P : Box × Nat → Bool)
    (R : List (Nat × Nat)) :
    ∀ (l : List (Box × Nat)),
      (∀ p ∈ l, R.countP (inRun axis p) = 1) →
      (R.map (fun r => (axisChunk axis l r).countP P)).sum = l.countP P := by
  intro l
  induction l with
  | nil =>
      intro _
      have hz : ∀ r ∈ R, (axisChunk axis ([] : List (Box × Nat)) r).countP P = 0 :=
        fun r _ => rfl
      rw [sum_map_congr _ (fun _ => 0) R hz, sum_map_zero]
      simp
  | cons p l ih =>
      intro h
      rw [sum_map_congr _ _ R (chunk_countP_cons axis P p l R), sum_map_add,
        List.countP_cons]
      have h1 := ih (fun q hq => h q (List.mem_cons_of_mem p hq))
      have h2 := ind_sum_eq axis P R p (h p (List.mem_cons_self p l))
      omega

/-! ### Per-pair run membership counts -/

theorem pair_inRun_countP_le_one (axis : Nat) (boxes : List Box) (S E : List Nat)
    (hs : split_projection_profile (projection_by_bboxes boxes axis) 0 1 = some (S, E))
    (p : Box × Nat) : (S.zip E).countP (inRun axis p) ≤ 1 :=
  split_runs_countP_le_one _ 0 1 S E hs (p.1.coordStart axis)

theorem coordStart_active (pairs : List (Box × Nat)) (axis : Nat) (p : Box × Nat)
    (hp : p ∈ pairs) (hwfax : p.1.coordStart axis < p.1.coordEnd axis) :
    p.1.coordStart axis ∈
      activeIndices (projection_by_bboxes (pairs.map Prod.fst) axis) 0 := by
  have hb : p.1 ∈ pairs.map Prod.fst := List.mem_map_of_mem Prod.fst hp
  have hcov : covers p.1 axis (p.1.coordStart axis) := ⟨Nat.le_refl _, hwfax⟩
  have hlen : p.1.coordStart axis < projLen (pairs.map Prod.fst) axis := by
    have := coord_le_projLen (pairs.map Prod.fst) axis p.1 hb
    omega
  exact (mem_activeIndices_projection _ axis _).mpr ⟨hlen, p.1, hb, hcov⟩

theorem pair_inRun_countP_eq_one (pairs : List (Box × Nat)) (axis : Nat) (S E : List Nat)
    (hs : split_projection_profile (projection_by_bboxes (pairs.map Prod.fst) axis) 0 1 =
      some (S, E)) (p : Box × Nat) (hp : p ∈ pairs)
    (hwfax : p.1.coordStart axis < p.1.coordEnd axis) :
    (S.zip E).countP (inRun axis p) = 1 :=
  split_runs_countP_eq_one _ 0 1 S E hs _ (coordStart_active pairs axis p hp hwfax)

theorem split_some_of_mem (pairs : List (Box × Nat)) (axis : Nat) (p : Box × Nat)
    (hp : p ∈ pairs) (hwfax : p.1.coordStart axis < p.1.coordEnd axis) :
    split_projection_profile (projection_by_bboxes (pairs.map Prod.fst) axis) 0 1 ≠
      none := by
  intro hnone
  have hidx := (split_none_iff _ 0 1).mp hnone
  have hact := coordStart_active pairs axis p hp hwfax
  rw [hidx] at hact
  cases hact

/-- Well-formedness on the vertical axis. -/
theorem wf_coord_y (p : Box × Nat) (h : p.1.WF) :
    p.1.coordStart 1 < p.1.coordEnd 1 := by
  unfold Box.coordStart Box.coordEnd
  simpa using h.2

/-- Well-formedness on the horizontal axis. -/
theorem wf_coord_x (p : Box × Nat) (h : p.1.WF) :
    p.1.coordStart 0 < p.1.coordEnd 0 := by
  unfold Box.coordStart Box.coordEnd
  simpa using h.1

/-! ### Unfolding helpers for `xyCutFuel` and `bandOut` -/

theorem xyCutFuel_succ (fuel : Nat) (pairs : List (Box × Nat)) :
    xyCutFuel (fuel + 1) pairs =
      match split_projection_profile
          (projection_by_bboxes ((List.insertionSort yLE pairs).map Prod.fst) 1) 0 1 with
      | none => []
      | some (ys, ye) =>
          ((ys.zip ye).map
            (bandOut (xyCutFuel fuel) (List.insertionSort yLE pairs))).flatten := rfl

theorem xyCutFuel_succ_none (fuel : Nat) (pairs : List (Box × Nat))
    (h : split_projection_profile
      (projection_by_bboxes ((List.insertionSort yLE pairs).map Prod.fst) 1) 0 1 = none) :
    xyCutFuel (fuel + 1) pairs = [] := by
  rw [xyCutFuel_succ, h]

theorem xyCutFuel_succ_some (fuel : Nat) (pairs : List (Box × Nat)) (ys ye : List Nat)
    (h : split_projection_profile
      (projection_by_bboxes ((List.insertionSort yLE pairs).map Prod.fst) 1) 0 1 =
      some (ys, ye)) :
    xyCutFuel (fuel + 1) pairs =
      ((ys.zip ye).map
        (bandOut (xyCutFuel fuel) (List.insertionSort yLE pairs))).flatten := by
  rw [xyCutFuel_succ, h]

theorem xyCutFuel_nil : ∀ (fuel : Nat), xyCutFuel fuel [] = []
  | 0 => rfl
  | _ + 1 => rfl

theorem bandOut_eq (recur : List (Box × Nat) → List Nat) (ySorted : List (Box × Nat))
    (r : Nat × Nat) :
    bandOut recur ySorted r =
      match split_projection_profile
          (projection_by_bboxes
            ((List.insertionSort xLE (bandChunk ySorted r)).map Prod.fst) 0) 0 1 with
      | none => []
      | some (xs, xe) =>
        if xs.length = 1 then (bandChunk ySorted r).map Prod.snd
        else ((xs.zip xe).map
          (fun c => recur (colChunk (List.insertionSort xLE (bandChunk ySorted r)) c))).flatten
  := rfl

theorem bandOut_none (recur : List (Box × Nat) → List Nat) (ySorted : List (Box × Nat))
    (r : Nat × Nat)
    (h : split_projection_profile
      (projection_by_bboxes
        ((List.insertionSort xLE (bandChunk ySorted r)).map Prod.fst) 0) 0 1 = none) :
    bandOut recur ySorted r = [] := by
  rw [bandOut_eq, h]

theorem bandOut_leaf (recur : List (Box × Nat) → List Nat) (ySorted : List (Box × Nat))
    (r : Nat × Nat) (xs xe : List Nat)
    (h : split_projection_profile
      (projection_by_bboxes
        ((List.insertionSort xLE (bandChunk ySorted r)).map Prod.fst) 0) 0 1 =
      some (xs, xe)) (h1 : xs.length = 1) :
    bandOut recur ySorted r = (bandChunk ySorted r).map Prod.snd := by
  rw [bandOut_eq, h]
  exact if_pos h1

theorem bandOut_rec (recur : List (Box × Nat) → List Nat) (ySorted : List (Box × Nat))
    (r : Nat × Nat) (xs xe : List Nat)
    (h : split_projection_profile
      (projection_by_bboxes
        ((List.insertionSort xLE (bandChunk ySorted r)).map Prod.fst) 0) 0 1 =
      some (xs, xe)) (h1 : xs.length ≠ 1) :
    bandOut recur ySorted r =
      ((xs.zip xe).map
        (fun c => recur (colChunk (List.insertionSort xLE (bandChunk ySorted r)) c))).flatten := by
  rw [bandOut_eq, h]
  exact if_neg h1

/-! ### Output multiplicity bounds (no identifier is duplicated) -/

theorem bandOut_count_le (a : Nat) (fuel : Nat)
    (ih : ∀ ps, (xyCutFuel fuel ps).count a ≤ ps.countP (fun p => p.2 == a))
    (ySorted : List (Box × Nat)) (r : Nat × Nat) :
    (bandOut (xyCutFuel fuel) ySorted r).count a ≤
      (bandChunk ySorted r).countP (fun p => p.2 == a) := by
  cases hsx : split_projection_profile
      (projection_by_bboxes
        ((List.insertionSort xLE (bandChunk ySorted r)).map Prod.fst) 0) 0 1 with
  | none =>
      rw [bandOut_none _ _ _ hsx]
      simp
  | some SE =>
      obtain ⟨xs, xe⟩ := SE
      by_cases h1 : xs.length = 1
      · rw [bandOut_leaf _ _ _ xs xe hsx h1, count_map_snd]
      · rw [bandOut_rec _ _ _ xs xe hsx h1]
        rw [List.count_flatten, List.map_map]
        have hband : ∀ c ∈ xs.zip xe,
            (List.count a ∘
              fun c => xyCutFuel fuel
                (colChunk (List.insertionSort xLE (bandChunk ySorted r)) c)) c ≤
            (fun c => (axisChunk 0 (List.insertionSort xLE (bandChunk ySorted r)) c).countP
              (fun p => p.2 == a)) c := by
          intro c _
          exact ih _
        refine Nat.le_trans (sum_map_le _ _ _ hband) ?_
        have hrun : ∀ p ∈ List.insertionSort xLE (bandChunk ySorted r),
            (xs.zip xe).countP (inRun 0 p) ≤ 1 := by
          intro p _
          exact pair_inRun_countP_le_one 0 _ xs xe hsx p
        refine Nat.le_trans (sum_countP_chunks_le 0 _ (xs.zip xe) _ hrun) ?_
        have hperm := (List.perm_insertionSort xLE (bandChunk ySorted r)).countP_eq
          (fun p => p.2 == a)
        omega

theorem xyCut_count_le (a : Nat) :
    ∀ (fuel : Nat) (pairs : List (Box × Nat)),
      (xyCutFuel fuel pairs).count a ≤ pairs.countP (fun p => p.2 == a)
  | 0, pairs => by
      rw [xyCutFuel]
      simp
  | fuel + 1, pairs => by
      cases hsy : split_projection_profile
          (projection_by_bboxes ((List.insertionSort yLE pairs).map Prod.fst) 1) 0 1 with
      | none =>
          rw [xyCutFuel_succ_none fuel pairs hsy]
          simp
      | some SE =>
          obtain ⟨ys, ye⟩ := SE
          rw [xyCutFuel_succ_some fuel pairs ys ye hsy]
          rw [List.count_flatten, List.map_map]
          have hband : ∀ r ∈ ys.zip ye,
              (List.count a ∘ bandOut (xyCutFuel fuel) (List.insertionSort yLE pairs)) r ≤
              (fun r => (axisChunk 1 (List.insertionSort yLE pairs) r).countP
                (fun p => p.2 == a)) r := by
            intro r _
            exact bandOut_count_le a fuel (fun ps => xyCut_count_le a fuel ps) _ r
          refine Nat.le_trans (sum_map_le _ _ _ hband) ?_
          have hrun : ∀ p ∈ List.insertionSort yLE pairs,
              (ys.zip ye).countP (inRun 1 p) ≤ 1 := by
            intro p _
            exact pair_inRun_countP_le_one 1 _ ys ye hsy p
          refine Nat.le_trans (sum_countP_chunks_le 1 _ (ys.zip ye) _ hrun) ?_
          have hperm := (List.perm_insertionSort yLE pairs).countP_eq (fun p => p.2 == a)
          omega

/-! ### Exact multiplicity for well-formed inputs (permutation property) -/

theorem bandOut_count_eq (a : Nat) (fuel : Nat) (bound : Nat)
    (hbound : bound ≤ fuel + 1)
    (ih : ∀ ps, ps.length ≤ fuel → (∀ p ∈ ps, p.1.WF) →
      (xyCutFuel fuel ps).count a = ps.countP (fun p => p.2 == a))
    (ySorted : List (Box × Nat)) (hlen : ySorted.length ≤ bound)
    (hwf : ∀ p ∈ ySorted, p.1.WF) (r : Nat × Nat) :
    (bandOut (xyCutFuel fuel) ySorted r).count a =
      (bandChunk ySorted r).countP (fun p => p.2 == a) := by
  have hchunk_sub : ∀ p ∈ bandChunk ySorted r, p ∈ ySorted := by
    intro p hp
    exact (List.mem_filter.mp hp).1
  have hchunk_wf : ∀ p ∈ bandChunk ySorted r, p.1.WF :=
    fun p hp => hwf p (hchunk_sub p hp)
  have hx_wf : ∀ p ∈ List.insertionSort xLE (bandChunk ySorted r), p.1.WF := by
    intro p hp
    exact hchunk_wf p ((List.mem_insertionSort xLE).mp hp)
  cases hsx : split_projection_profile
      (projection_by_bboxes
        ((List.insertionSort xLE (bandChunk ySorted r)).map Prod.fst) 0) 0 1 with
  | none =>
      rw [bandOut_none _ _ _ hsx]
      cases hc : List.insertionSort xLE (bandChunk ySorted r) with
      | nil =>
          have : bandChunk ySorted r = [] := by
            have := List.perm_insertionSort xLE (bandChunk ySorted r)
            rw [hc] at this
            exact (List.Perm.nil_eq this).symm
          rw [this]
          rfl
      | cons q l =>
          exfalso
          have hq : q ∈ List.insertionSort xLE (bandChunk ySorted r) := by
            rw [hc]; exact List.mem_cons_self q l
          exact split_some_of_mem _ 0 q hq (wf_coord_x q (hx_wf q hq)) hsx
  | some SE =>
      obtain ⟨xs, xe⟩ := SE
      by_cases h1 : xs.length = 1
      · rw [bandOut_leaf _ _ _ xs xe hsx h1, count_map_snd]
      · rw [bandOut_rec _ _ _ xs xe hsx h1]
        rw [List.count_flatten, List.map_map]
        have h2 : 2 ≤ xs.length := by
          have := (split_lengths _ 0 1 xs xe hsx).2.1
          have : xs.length ≠ 0 := fun h => this (List.eq_nil_of_length_eq_zero h)
          omega
        have hxlen : (List.insertionSort xLE (bandChunk ySorted r)).length ≤ bound := by
          rw [List.length_insertionSort]
          exact Nat.le_trans (List.length_filter_le _ _) hlen
        have hband : ∀ c ∈ xs.zip xe,
            (List.count a ∘
              fun c => xyCutFuel fuel
                (colChunk (List.insertionSort xLE (bandChunk ySorted r)) c)) c =
            (fun c => (axisChunk 0 (List.insertionSort xLE (bandChunk ySorted r)) c).countP
              (fun p => p.2 == a)) c := by
          intro c hc
          have hstrict := axisChunk_strict _ 0 xs xe hsx h2 c hc
          have hcol_wf : ∀ p ∈ axisChunk 0 (List.insertionSort xLE (bandChunk ySorted r)) c,
              p.1.WF := by
            intro p hp
            exact hx_wf p (List.mem_filter.mp hp).1
          have hcol_len : (axisChunk 0 (List.insertionSort xLE (bandChunk ySorted r)) c).length
              ≤ fuel := by omega
          exact ih _ hcol_len hcol_wf
        rw [sum_map_congr _ _ _ hband]
        have hrun : ∀ p ∈ List.insertionSort xLE (bandChunk ySorted r),
            (xs.zip xe).countP (inRun 0 p) = 1 := by
          intro p hp
          exact pair_inRun_countP_eq_one _ 0 xs xe hsx p hp (wf_coord_x p (hx_wf p hp))
        rw [sum_countP_chunks_eq 0 _ (xs.zip xe) _ hrun]
        exact (List.perm_insertionSort xLE (bandChunk ySorted r)).countP_eq _

theorem xyCut_count_eq (a : Nat) :
    ∀ (fuel : Nat) (pairs : List (Box × Nat)), pairs.length ≤ fuel →
      (∀ p ∈ pairs, p.1.WF) →
      (xyCutFuel fuel pairs).count a = pairs.countP (fun p => p.2 == a)
  | 0, pairs, hfuel, _ => by
      have hnil : pairs = [] := List.eq_nil_of_length_eq_zero (by omega)
      subst hnil
      rfl
  | fuel + 1, pairs, hfuel, hwf => by
      have hys_wf : ∀ p ∈ List.insertionSort yLE pairs, p.1.WF :=
        fun p hp => hwf p ((List.mem_insertionSort yLE).mp hp)
      cases hsy : split_projection_profile
          (projection_by_bboxes ((List.insertionSort yLE pairs).map Prod.fst) 1) 0 1 with
      | none =>
          rw [xyCutFuel_succ_none fuel pairs hsy]
          cases hc : pairs with
          | nil => rfl
          | cons q l =>
              exfalso
              have hq : q ∈ List.insertionSort yLE pairs := by
                rw [List.mem_insertionSort yLE, hc]
                exact List.mem_cons_self q l
              exact split_some_of_mem _ 1 q hq
                (wf_coord_y q (hys_wf q hq)) hsy
      | some SE =>
          obtain ⟨ys, ye⟩ := SE
          rw [xyCutFuel_succ_some fuel pairs ys ye hsy]
          rw [List.count_flatten, List.map_map]
          have hyslen : (List.insertionSort yLE pairs).length ≤ pairs.length := by
            rw [List.length_insertionSort]
          have hband : ∀ r ∈ ys.zip ye,
              (List.count a ∘ bandOut (xyCutFuel fuel) (List.insertionSort yLE pairs)) r =
              (fun r => (axisChunk 1 (List.insertionSort yLE pairs) r).countP
                (fun p => p.2 == a)) r := by
            intro r _
            exact bandOut_count_eq a fuel pairs.length hfuel
              (fun ps h1 h2 => xyCut_count_eq a fuel ps h1 h2)
              (List.insertionSort yLE pairs) hyslen hys_wf r
          rw [sum_map_congr _ _ _ hband]
          have hrun : ∀ p ∈ List.insertionSort yLE pairs,
              (ys.zip ye).countP (inRun 1 p) = 1 := by
            intro p hp
            exact pair_inRun_countP_eq_one _ 1 ys ye hsy p hp
              (wf_coord_y p (hys_wf p hp))
          rw [sum_countP_chunks_eq 1 _ (ys.zip ye) _ hrun]
          exact (List.perm_insertionSort yLE pairs).countP_eq _

/-! ### Fuel irrelevance: the recursion terminates within `pairs.length` levels -/

theorem bandOut_congr (rec₁ rec₂ : List (Box × Nat) → List Nat)
    (ySorted : List (Box × Nat)) (r : Nat × Nat)
    (h : ∀ q : List (Box × Nat),
      q.length < (List.insertionSort xLE (bandChunk ySorted r)).length →
        rec₁ q = rec₂ q) :
    bandOut rec₁ ySorted r = bandOut rec₂ ySorted r := by
  cases hsx : split_projection_profile
      (projection_by_bboxes
        ((List.insertionSort xLE (bandChunk ySorted r)).map Prod.fst) 0) 0 1 with
  | none => rw [bandOut_none _ _ _ hsx, bandOut_none _ _ _ hsx]
  | some SE =>
      obtain ⟨xs, xe⟩ := SE
      by_cases h1 : xs.length = 1
      · rw [bandOut_leaf _ _ _ xs xe hsx h1, bandOut_leaf _ _ _ xs xe hsx h1]
      · rw [bandOut_rec _ _ _ xs xe hsx h1, bandOut_rec _ _ _ xs xe hsx h1]
        congr 1
        apply List.map_congr_left
        intro c hc
        have h2 : 2 ≤ xs.length := by
          have hne := (split_lengths _ 0 1 xs xe hsx).2.1
          have : xs.length ≠ 0 := fun hz => hne (List.eq_nil_of_length_eq_zero hz)
          omega
        have hstrict := axisChunk_strict _ 0 xs xe hsx h2 c hc
        exact h _ hstrict.2

theorem xyCutFuel_irrel : ∀ (f g : Nat) (pairs : List (Box × Nat)),
    pairs.length ≤ f → pairs.length ≤ g → xyCutFuel f pairs = xyCutFuel g pairs
  | 0, g, pairs, hf, _ => by
      have hnil : pairs = [] := List.eq_nil_of_length_eq_zero (by omega)
      subst hnil
      rw [xyCutFuel_nil, xyCutFuel_nil]
  | f + 1, 0, pairs, _, hg => by
      have hnil : pairs = [] := List.eq_nil_of_length_eq_zero (by omega)
      subst hnil
      rw [xyCutFuel_nil, xyCutFuel_nil]
  | f + 1, g + 1, pairs, hf, hg => by
      cases hsy : split_projection_profile
          (projection_by_bboxes ((List.insertionSort yLE pairs).map Prod.fst) 1) 0 1 with
      | none => rw [xyCutFuel_succ_none f pairs hsy, xyCutFuel_succ_none g pairs hsy]
      | some SE =>
          obtain ⟨ys, ye⟩ := SE
          rw [xyCutFuel_succ_some f pairs ys ye hsy, xyCutFuel_succ_some g pairs ys ye hsy]
          congr 1
          apply List.map_congr_left
          intro r _
          apply bandOut_congr
          intro q hq
          have h1 : (List.insertionSort xLE
              (bandChunk (List.insertionSort yLE pairs) r)).length =
              (bandChunk (List.insertionSort yLE pairs) r).length :=
            List.length_insertionSort _ _
          have h2 : (bandChunk (List.insertionSort yLE pairs) r).length ≤
              (List.insertionSort yLE pairs).length := List.length_filter_le _ _
          have h3 : (List.insertionSort yLE pairs).length = pairs.length :=
            List.length_insertionSort _ _
          exact xyCutFuel_irrel f g q (by omega) (by omega)

/-- **C1.** For well-formed boxes paired with (distinct) identifiers the
    output of `recursive_xy_cut` is a permutation of the input identifiers:
    same length, same multiset, nothing dropped or duplicated. -/
theorem recursive_xy_cut_permutation (pairs : List (Box × Nat))
    (hwf : ∀ p ∈ pairs, p.1.WF) (hnd : (pairs.map Prod.snd).Nodup) :
    (recursive_xy_cut pairs).Perm (pairs.map Prod.snd) := by
  rw [List.perm_iff_count]
  intro a
  rw [recursive_xy_cut, xyCut_count_eq a pairs.length pairs (Nat.le_refl _) hwf,
    count_map_snd]

theorem recursive_xy_cut_permutation_witness :
    (recursive_xy_cut [(⟨0, 0, 10, 5⟩, 7), (⟨0, 10, 10, 15⟩, 3)]).Perm [7, 3] := by
  have h := recursive_xy_cut_permutation [(⟨0, 0, 10, 5⟩, 7), (⟨0, 10, 10, 15⟩, 3)]
    (by decide) (by decide)
  simpa using h

/-- **C10.** Even without any well-formedness assumption (so degenerate
    splits may drop identifiers), distinct input identifiers are never
    emitted twice: each box's vertical start lies in at most one band and
    its horizontal start in at most one column. -/
theorem recursive_xy_cut_no_duplicates (pairs : List (Box × Nat))
    (hnd : (pairs.map Prod.snd).Nodup) :
    (recursive_xy_cut pairs).Nodup := by
  rw [List.nodup_iff_count_le_one] at *
  intro a
  have h1 := xyCut_count_le a pairs.length pairs
  have h2 := hnd a
  rw [← count_map_snd] at h1
  rw [recursive_xy_cut]
  omega

theorem recursive_xy_cut_no_duplicates_witness :
    (recursive_xy_cut [(⟨0, 0, 10, 5⟩, 7), (⟨0, 10, 10, 15⟩, 3)]).Nodup :=
  recursive_xy_cut_no_duplicates [(⟨0, 0, 10, 5⟩, 7), (⟨0, 10, 10, 15⟩, 3)] (by decide)

/-- **C8.** Termination of `recursive_xy_cut`: whenever a horizontal split
    yields two or more runs, each recursive call receives a non-empty chunk
    strictly smaller than the caller's list; consequently the recursion is
    fully determined by any fuel of at least the input length. -/
theorem recursive_xy_cut_terminates (pairs : List (Box × Nat)) :
    (∀ (q : List (Box × Nat)) (xs xe : List Nat),
      split_projection_profile (projection_by_bboxes (q.map Prod.fst) 0) 0 1 =
        some (xs, xe) → 2 ≤ xs.length →
      ∀ c ∈ xs.zip xe, colChunk q c ≠ [] ∧ (colChunk q c).length < q.length) ∧
    (∀ fuel, pairs.length ≤ fuel → xyCutFuel fuel pairs = recursive_xy_cut pairs) := by
  constructor
  · intro q xs xe hs h2 c hc
    rw [colChunk_eq_axisChunk]
    exact axisChunk_strict q 0 xs xe hs h2 c hc
  · intro fuel hfuel
    rw [recursive_xy_cut]
    exact xyCutFuel_irrel fuel pairs.length pairs hfuel (Nat.le_refl _)

theorem recursive_xy_cut_terminates_witness :
    xyCutFuel 5 [(⟨0, 0, 10, 5⟩, 0), (⟨0, 10, 10, 15⟩, 1)] =
      recursive_xy_cut [(⟨0, 0, 10, 5⟩, 0), (⟨0, 10, 10, 15⟩, 1)] :=
  (recursive_xy_cut_terminates [(⟨0, 0, 10, 5⟩, 0), (⟨0, 10, 10, 15⟩, 1)]).2 5
    (by decide)

/-! ### C2: the single-run leaf emits the y-sorted order, not the x-sorted order -/

/-- **C2 counterexample.** A single band whose horizontal split has exactly
    one run: box `0` starts higher (smaller `y0`) but further right (larger
    `x0`) than box `1`.  The code emits `y_sorted_indices_chunk = [0, 1]`,
    while the horizontally sorted order of the band is `[1, 0]`. -/
theorem band_emission_not_x_sorted :
    split_projection_profile
        (projection_by_bboxes
          ((List.insertionSort yLE
            [((⟨5, 0, 10, 10⟩ : Box), 0), (⟨0, 1, 6, 10⟩, 1)]).map Prod.fst) 1) 0 1 =
      some ([0], [10]) ∧
    bandChunk (List.insertionSort yLE [((⟨5, 0, 10, 10⟩ : Box), 0), (⟨0, 1, 6, 10⟩, 1)])
        (0, 10) =
      List.insertionSort yLE [((⟨5, 0, 10, 10⟩ : Box), 0), (⟨0, 1, 6, 10⟩, 1)] ∧
    split_projection_profile
        (projection_by_bboxes
          ((List.insertionSort xLE
            (bandChunk
              (List.insertionSort yLE [((⟨5, 0, 10, 10⟩ : Box), 0), (⟨0, 1, 6, 10⟩, 1)])
              (0, 10))).map Prod.fst) 0) 0 1 =
      some ([0], [10]) ∧
    recursive_xy_cut [((⟨5, 0, 10, 10⟩ : Box), 0), (⟨0, 1, 6, 10⟩, 1)] = [0, 1] ∧
    (List.insertionSort xLE
        (bandChunk
          (List.insertionSort yLE [((⟨5, 0, 10, 10⟩ : Box), 0), (⟨0, 1, 6, 10⟩, 1)])
          (0, 10))).map Prod.snd = [1, 0] ∧
    ([0, 1] : List Nat) ≠ [1, 0] := by
  decide

/-- **C2 (amended).** When the horizontal split of a band yields exactly one
    run, the band's identifiers are appended in the *vertically* sorted
    order of the band (`y_sorted_indices_chunk`), which is ascending in
    vertical start coordinate — not in the horizontally re-sorted order. -/
theorem band_single_run_emits_y_sorted (recur : List (Box × Nat) → List Nat)
    (pairs : List (Box × Nat)) (r : Nat × Nat) (xs xe : List Nat)
    (h : split_projection_profile
      (projection_by_bboxes
        ((List.insertionSort xLE
          (bandChunk (List.insertionSort yLE pairs) r)).map Prod.fst) 0) 0 1 =
      some (xs, xe))
    (h1 : xs.length = 1) :
    bandOut recur (List.insertionSort yLE pairs) r =
      (bandChunk (List.insertionSort yLE pairs) r).map Prod.snd ∧
    (bandChunk (List.insertionSort yLE pairs) r).Pairwise yLE := by
  refine ⟨bandOut_leaf recur _ r xs xe h h1, ?_⟩
  exact List.Pairwise.filter _ (List.sorted_insertionSort yLE pairs)

theorem band_single_run_emits_y_sorted_witness :
    bandOut (fun _ => [])
        (List.insertionSort yLE [((⟨5, 0, 10, 10⟩ : Box), 0), (⟨0, 1, 6, 10⟩, 1)]) (0, 10) =
      (bandChunk (List.insertionSort yLE [((⟨5, 0, 10, 10⟩ : Box), 0), (⟨0, 1, 6, 10⟩, 1)])
        (0, 10)).map Prod.snd ∧
    (bandChunk (List.insertionSort yLE [((⟨5, 0, 10, 10⟩ : Box), 0), (⟨0, 1, 6, 10⟩, 1)])
      (0, 10)).Pairwise yLE :=
  band_single_run_emits_y_sorted (fun _ => [])
    [((⟨5, 0, 10, 10⟩ : Box), 0), (⟨0, 1, 6, 10⟩, 1)] (0, 10) [0] [10]
    (by decide) (by decide)

/-! ### C4: a one-unit empty gap already separates bands -/

/-- **C4 counterexample.** Two well-formed boxes whose vertical extents are
    separated by exactly one empty unit (`[0,3)` and `[4,7)`, gap = unit 3):
    the claim says `gap ≤ min_gap = 1` keeps them in a single band, but the
    vertical split returns two runs, and no run contains both vertical
    starts `0` and `4`. -/
theorem one_unit_gap_two_bands :
    split_projection_profile
        (projection_by_bboxes [⟨0, 0, 5, 3⟩, ⟨0, 4, 5, 7⟩] 1) 0 1 =
      some ([0, 4], [3, 7]) ∧
    ¬ ∃ ab ∈ (([0, 4] : List Nat).zip ([3, 7] : List Nat)),
        ab.1 ≤ 0 ∧ 0 < ab.2 ∧ ab.1 ≤ 4 ∧ 4 < ab.2 := by
  decide

theorem gapBounds_range' : ∀ (n s : Nat), gapBounds 1 (List.range' s n) = []
  | 0, s => rfl
  | 1, s => rfl
  | n + 2, s => by
      rw [List.range'_succ, List.range'_succ]
      rw [gapBounds_cons]
      rw [if_neg (by omega : ¬ (1 : Int) < (s + 1 : Nat) - (s : Nat))]
      rw [List.nil_append, ← List.range'_succ]
      exact gapBounds_range' (n + 1) (s + 1)

theorem sorted_lt_ext : ∀ (l₁ l₂ : List Nat), l₁.Pairwise (· < ·) →
    l₂.Pairwise (· < ·) → (∀ x, x ∈ l₁ ↔ x ∈ l₂) → l₁ = l₂
  | [], [], _, _, _ => rfl
  | [], b :: l₂, _, _, hiff => by
      exact absurd ((hiff b).mpr (List.mem_cons_self b l₂)) (List.not_mem_nil b)
  | a :: l₁, [], _, _, hiff => by
      exact absurd ((hiff a).mp (List.mem_cons_self a l₁)) (List.not_mem_nil a)
  | a :: l₁, b :: l₂, h₁, h₂, hiff => by
      have h₁' := List.pairwise_cons.mp h₁
      have h₂' := List.pairwise_cons.mp h₂
      have hab : a = b := by
        have ha : a ∈ b :: l₂ := (hiff a).mp (List.mem_cons_self a l₁)
        have hb : b ∈ a :: l₁ := (hiff b).mpr (List.mem_cons_self b l₂)
        rcases List.mem_cons.mp ha with h | h
        · exact h
        · rcases List.mem_cons.mp hb with h' | h'
          · exact h'.symm
          · have := h₂'.1 a h
            have := h₁'.1 b h'
            omega
      subst hab
      have htail : ∀ x, x ∈ l₁ ↔ x ∈ l₂ := by
        intro x
        constructor
        · intro hx
          have hxa : a < x := h₁'.1 x hx
          rcases List.mem_cons.mp ((hiff x).mp (List.mem_cons_of_mem a hx)) with h | h
          · omega
          · exact h
        · intro hx
          have hxa : a < x := h₂'.1 x hx
          rcases List.mem_cons.mp ((hiff x).mpr (List.mem_cons_of_mem a hx)) with h | h
          · omega
          · exact h
      rw [sorted_lt_ext l₁ l₂ h₁'.2 h₂'.2 htail]

/-- **C4 (amended).** Two well-formed boxes whose vertical extents touch or
    overlap (`a.y0 ≤ b.y0 ≤ a.y1`) produce a vertical projection that splits
    into exactly one band `[a.y0, max a.y1 b.y1)`, and both boxes' vertical
    starts lie inside that single band; only a gap of at least one empty
    unit separates bands. -/
theorem touching_boxes_single_band (a b : Box) (hwa : a.WF) (hwb : b.WF)
    (hord : a.y0 ≤ b.y0) (htouch : b.y0 ≤ a.y1) :
    split_projection_profile (projection_by_bboxes [a, b] 1) 0 1 =
      some ([a.y0], [max a.y1 b.y1]) ∧
    (a.y0 ≤ a.y0 ∧ a.y0 < max a.y1 b.y1) ∧
    (a.y0 ≤ b.y0 ∧ b.y0 < max a.y1 b.y1) := by
  have hya := hwa.2
  have hyb := hwb.2
  have hlen : projLen [a, b] 1 = max a.y1 b.y1 := by
    show max (max 0 (max (a.coordStart 1) (a.coordEnd 1)))
        (max (b.coordStart 1) (b.coordEnd 1)) = max a.y1 b.y1
    unfold Box.coordStart Box.coordEnd
    simp only [if_neg (by omega : ¬ (1 : Nat) = 0)]
    omega
  have hmem : ∀ p, p ∈ activeIndices (projection_by_bboxes [a, b] 1) 0 ↔
      (a.y0 ≤ p ∧ p < max a.y1 b.y1) := by
    intro p
    rw [mem_activeIndices_projection, hlen]
    constructor
    · rintro ⟨hp, c, hc, hcov⟩
      rcases List.mem_cons.mp hc with h | h
      · subst h
        have h1 := hcov.1
        have h2 := hcov.2
        simp only [Box.coordStart, Box.coordEnd,
          if_neg (by omega : ¬ (1 : Nat) = 0)] at h1 h2
        omega
      · have h' : c = b := by simpa using h
        subst h'
        have h1 := hcov.1
        have h2 := hcov.2
        simp only [Box.coordStart, Box.coordEnd,
          if_neg (by omega : ¬ (1 : Nat) = 0)] at h1 h2
        omega
    · rintro ⟨h1, h2⟩
      refine ⟨h2, ?_⟩
      by_cases hca : p < a.y1
      · refine ⟨a, List.mem_cons_self a [b], ?_⟩
        constructor <;>
          · simp only [Box.coordStart, Box.coordEnd,
              if_neg (by omega : ¬ (1 : Nat) = 0)]
            omega
      · refine ⟨b, by simp, ?_⟩
        constructor <;>
          · simp only [Box.coordStart, Box.coordEnd,
              if_neg (by omega : ¬ (1 : Nat) = 0)]
            omega
  have hidx : activeIndices (projection_by_bboxes [a, b] 1) 0 =
      List.range' a.y0 (max a.y1 b.y1 - a.y0) := by
    refine sorted_lt_ext _ _ (activeIndices_pairwise _ 0)
      (List.pairwise_lt_range' a.y0 _ 1) ?_
    intro x
    rw [hmem x, List.mem_range'_1]
    omega
  have hmax : a.y0 < max a.y1 b.y1 := by omega
  have hn : max a.y1 b.y1 - a.y0 = (max a.y1 b.y1 - a.y0 - 1) + 1 := by omega
  refine ⟨?_, ⟨Nat.le_refl _, hmax⟩, ⟨hord, by omega⟩⟩
  rw [hn, List.range'_succ] at hidx
  rw [split_of_active _ 0 1 a.y0 (List.range' (a.y0 + 1) (max a.y1 b.y1 - a.y0 - 1)) hidx]
  rw [← List.range'_succ, ← hn]
  rw [gapBounds_range']
  simp only [List.map_nil, List.nil_append]
  have hlast : (List.range' a.y0 (max a.y1 b.y1 - a.y0)).getLastD 0 =
      max a.y1 b.y1 - 1 := by
    rw [List.getLastD_eq_getLast?, List.getLast?_range']
    rw [if_neg (by omega : ¬ max a.y1 b.y1 - a.y0 = 0)]
    simp only [Option.getD_some]
    omega
  rw [hlast]
  have : max a.y1 b.y1 - 1 + 1 = max a.y1 b.y1 := by omega
  rw [this]

theorem touching_boxes_single_band_witness :
    split_projection_profile
        (projection_by_bboxes [⟨0, 0, 5, 3⟩, ⟨0, 3, 5, 7⟩] 1) 0 1 =
      some ([0], [max 3 7]) ∧
    ((0 : Nat) ≤ 0 ∧ 0 < max 3 7) ∧ ((0 : Nat) ≤ 3 ∧ 3 < max 3 7) :=
  touching_boxes_single_band ⟨0, 0, 5, 3⟩ ⟨0, 3, 5, 7⟩ (by decide) (by decide)
    (by decide) (by decide)

/-! ### C3: the caller falls back only on an empty result -/

/-- **C3 counterexample.** A degenerate region (point polygon at `(0, 10)`)
    is silently dropped by the recursion: the result `[1]` is shorter than
    the region list, yet `process_page` does not fall back to the original
    order — it reorders with the short result and loses region `0`. -/
theorem process_page_short_result_not_fallback :
    recursive_xy_cut ([⟨0, 10, 0, 10⟩, ⟨0, 0, 5, 5⟩].zip (List.range 2)) = [1] ∧
    (recursive_xy_cut ([⟨0, 10, 0, 10⟩, ⟨0, 0, 5, 5⟩].zip (List.range 2))).length <
      ([⟨0, 10, 0, 10⟩, ⟨0, 0, 5, 5⟩] : List Box).length ∧
    process_page [⟨0, 10, 0, 10⟩, ⟨0, 0, 5, 5⟩] = [⟨0, 0, 5, 5⟩] ∧
    process_page [⟨0, 10, 0, 10⟩, ⟨0, 0, 5, 5⟩] ≠ [⟨0, 10, 0, 10⟩, ⟨0, 0, 5, 5⟩] := by
  decide

/-- **C3 (amended).** `process_page` falls back to the original region order
    only when the recursion produces an *empty* output (`if not res`); a
    non-empty but incomplete output is trusted: the page is reordered by the
    short result and unlisted regions are dropped. -/
theorem process_page_fallback_empty_only (regions : List Box)
    (h2 : 2 ≤ regions.length) :
    (recursive_xy_cut (regions.zip (List.range regions.length)) = [] →
      process_page regions = regions) ∧
    (recursive_xy_cut (regions.zip (List.range regions.length)) ≠ [] →
      process_page regions =
        (recursive_xy_cut (regions.zip (List.range regions.length))).map
          (fun i => regions.getD i ⟨0, 0, 0, 0⟩)) := by
  constructor
  · intro hres
    unfold process_page
    rw [if_neg (by omega : ¬ regions.length < 2)]
    simp only
    rw [if_pos hres]
  · intro hres
    unfold process_page
    rw [if_neg (by omega : ¬ regions.length < 2)]
    simp only
    rw [if_neg hres]

theorem process_page_fallback_empty_only_witness :
    process_page [⟨0, 0, 10, 5⟩, ⟨0, 10, 10, 15⟩] =
      (recursive_xy_cut
        ([⟨0, 0, 10, 5⟩, ⟨0, 10, 10, 15⟩].zip
          (List.range ([⟨0, 0, 10, 5⟩, ⟨0, 10, 10, 15⟩] : List Box).length))).map
        (fun i => [⟨0, 0, 10, 5⟩, ⟨0, 10, 10, 15⟩].getD i ⟨0, 0, 0, 0⟩) :=
  (process_page_fallback_empty_only [⟨0, 0, 10, 5⟩, ⟨0, 10, 10, 15⟩] (by decide)).2
    (by decide)

/-! ### Reordering by an output identifier sequence -/

theorem pair_eq_of_snd_eq : ∀ (l : List (Box × Nat)), (l.map Prod.snd).Nodup →
    ∀ q₁ q₂ : Box × Nat, q₁ ∈ l → q₂ ∈ l → q₁.2 = q₂.2 → q₁ = q₂
  | [], _, _, _, h, _, _ => absurd h (List.not_mem_nil _)
  | p :: t, hnd, q₁, q₂, h₁, h₂, hsnd => by
      rw [List.map_cons] at hnd
      have hnd' := List.pairwise_cons.mp hnd
      rcases List.mem_cons.mp h₁ with hq₁ | hq₁ <;>
        rcases List.mem_cons.mp h₂ with hq₂ | hq₂
      · rw [hq₁, hq₂]
      · exfalso
        exact hnd'.1 q₂.2 (List.mem_map_of_mem Prod.snd hq₂) (by rw [← hq₁, hsnd])
      · exfalso
        exact hnd'.1 q₁.2 (List.mem_map_of_mem Prod.snd hq₁) (by rw [← hq₂, ← hsnd])
      · exact pair_eq_of_snd_eq t hnd'.2 q₁ q₂ hq₁ hq₂ hsnd

theorem find?_id_eq : ∀ (l : List (Box × Nat)), (l.map Prod.snd).Nodup →
    ∀ q : Box × Nat, q ∈ l → l.find? (fun p => p.2 == q.2) = some q
  | [], _, _, hq => absurd hq (List.not_mem_nil _)
  | p :: t, hnd, q, hq => by
      by_cases hp : p.2 = q.2
      · rw [List.find?_cons_of_pos _ (by simpa using hp)]
        rw [pair_eq_of_snd_eq (p :: t) hnd p q (List.mem_cons_self p t) hq hp]
      · rw [List.find?_cons_of_neg _ (by simpa using hp)]
        have hqt : q ∈ t := by
          rcases List.mem_cons.mp hq with h | h
          · exact absurd (by rw [h]) hp
          · exact h
        rw [List.map_cons] at hnd
        exact find?_id_eq t (List.pairwise_cons.mp hnd).2 q hqt

theorem reorder_map_snd (l : List (Box × Nat)) (hnd : (l.map Prod.snd).Nodup) :
    ∀ (out : List Nat), (∀ i ∈ out, ∃ q ∈ l, q.2 = i) →
      (reorderByOut l out).map Prod.snd = out
  | [], _ => rfl
  | i :: out, hsub => by
      obtain ⟨q, hq, hqi⟩ := hsub i (List.mem_cons_self i out)
      have hfind : l.find? (fun p => p.2 == i) = some q := hqi ▸ find?_id_eq l hnd q hq
      have hrec := reorder_map_snd l hnd out (fun j hj => hsub j (List.mem_cons_of_mem i hj))
      unfold reorderByOut at hrec ⊢
      rw [List.filterMap_cons, hfind, List.map_cons, hrec, hqi]

theorem reorder_mem (l : List (Box × Nat)) (out : List Nat) (q : Box × Nat)
    (hq : q ∈ reorderByOut l out) : q ∈ l := by
  obtain ⟨i, _, hfind⟩ := List.mem_filterMap.mp hq
  exact List.mem_of_find?_eq_some hfind

theorem mem_reorder (l : List (Box × Nat)) (hnd : (l.map Prod.snd).Nodup)
    (out : List Nat) (q : Box × Nat) (hq : q ∈ l) (hi : q.2 ∈ out) :
    q ∈ reorderByOut l out :=
  List.mem_filterMap.mpr ⟨q.2, hi, find?_id_eq l hnd q hq⟩

theorem reorder_perm_sub (l m : List (Box × Nat)) (hnd : (l.map Prod.snd).Nodup)
    (hm : ∀ q ∈ m, q ∈ l) (hmnd : (m.map Prod.snd).Nodup) (out : List Nat)
    (hperm : out.Perm (m.map Prod.snd)) :
    (reorderByOut l out).Perm m := by
  have houtnd : out.Nodup := hperm.nodup_iff.mpr hmnd
  have hsub : ∀ i ∈ out, ∃ q ∈ l, q.2 = i := by
    intro i hi
    obtain ⟨q, hq, hqi⟩ := List.mem_map.mp (hperm.subset hi)
    exact ⟨q, hm q hq, hqi⟩
  have hrsnd : (reorderByOut l out).map Prod.snd = out := reorder_map_snd l hnd out hsub
  have hrnd : (reorderByOut l out).Nodup := by
    have h : ((reorderByOut l out).map Prod.snd).Nodup := by rw [hrsnd]; exact houtnd
    exact h.of_map _
  have hmnd' : m.Nodup := hmnd.of_map _
  rw [List.perm_ext_iff_of_nodup hrnd hmnd']
  intro q
  constructor
  · intro hq
    obtain ⟨i, hi, hfind⟩ := List.mem_filterMap.mp hq
    have hql : q ∈ l := List.mem_of_find?_eq_some hfind
    have hqi : q.2 = i := by
      have := List.find?_some hfind
      simpa using this
    obtain ⟨p, hp, hpi⟩ := List.mem_map.mp (hperm.subset hi)
    have hpq : p = q := pair_eq_of_snd_eq l hnd p q (hm p hp) hql (by rw [hpi, hqi])
    exact hpq ▸ hp
  · intro hqm
    exact mem_reorder l hnd out q (hm q hqm)
      (hperm.symm.subset (List.mem_map_of_mem Prod.snd hqm))

theorem reorder_map_snd_self (l : List (Box × Nat)) (hnd : (l.map Prod.snd).Nodup) :
    ∀ (m : List (Box × Nat)), (∀ q ∈ m, q ∈ l) →
      reorderByOut l (m.map Prod.snd) = m
  | [], _ => rfl
  | q :: m, hsub => by
      show ((q.2 :: m.map Prod.snd).filterMap (fun i => l.find? (fun p => p.2 == i))) = q :: m
      rw [List.filterMap_cons, find?_id_eq l hnd q (hsub q (List.mem_cons_self q m))]
      rw [show ((m.map Prod.snd).filterMap (fun i => l.find? (fun p => p.2 == i))) =
        reorderByOut l (m.map Prod.snd) from rfl]
      rw [reorder_map_snd_self l hnd m (fun p hp => hsub p (List.mem_cons_of_mem q hp))]

theorem reorder_congr_sub (l sub : List (Box × Nat)) (hnd : (l.map Prod.snd).Nodup)
    (hsubnd : (sub.map Prod.snd).Nodup) (hsub : ∀ q ∈ sub, q ∈ l)
    (out : List Nat) (hout : ∀ i ∈ out, ∃ q ∈ sub, q.2 = i) :
    reorderByOut sub out = reorderByOut l out := by
  unfold reorderByOut
  apply List.filterMap_congr
  intro i hi
  obtain ⟨q, hq, hqi⟩ := hout i hi
  subst hqi
  rw [find?_id_eq sub hsubnd q hq, find?_id_eq l hnd q (hsub q hq)]

theorem reorder_flatten (l : List (Box × Nat)) :
    ∀ (L : List (List Nat)),
      reorderByOut l L.flatten = (L.map (reorderByOut l)).flatten
  | [] => rfl
  | o :: L => by
      show reorderByOut l (o ++ L.flatten) = _
      rw [show reorderByOut l (o ++ L.flatten) =
        reorderByOut l o ++ reorderByOut l L.flatten from List.filterMap_append o _ _]
      rw [reorder_flatten l L, List.map_cons, List.flatten_cons]

/-! ### Stable sorting commutes with filtering -/

theorem orderedInsert_all_le {α : Type} (r : α → α → Prop) [DecidableRel r] (a : α) :
    ∀ (M : List α), (∀ x ∈ M, r a x) → List.orderedInsert r a M = a :: M
  | [], _ => rfl
  | b :: M, h => by
      show (if r a b then a :: b :: M else b :: List.orderedInsert r a M) = _
      rw [if_pos (h b (List.mem_cons_self b M))]

theorem filter_orderedInsert {α : Type} (r : α → α → Prop) [DecidableRel r]
    [IsTotal α r] [IsTrans α r] (P : α → Bool) (a : α) :
    ∀ (M : List α), M.Sorted r →
      (List.orderedInsert r a M).filter P =
        if P a then List.orderedInsert r a (M.filter P) else M.filter P
  | [], _ => by
      show [a].filter P = _
      rw [List.filter_cons]
      by_cases hPa : P a = true
      · simp only [if_pos hPa]
        rfl
      · simp only [if_neg hPa]
  | b :: M, hs => by
      have hsM : M.Sorted r := hs.of_cons
      by_cases hab : r a b
      · rw [show List.orderedInsert r a (b :: M) =
          (if r a b then a :: b :: M else b :: List.orderedInsert r a M) from rfl,
          if_pos hab, List.filter_cons]
        by_cases hPa : P a = true
        · simp only [if_pos hPa]
          rw [orderedInsert_all_le r a ((b :: M).filter P) ?_]
          intro x hx
          have hx' := (List.mem_filter.mp hx).1
          rcases List.mem_cons.mp hx' with h | h
          · rw [h]; exact hab
          · exact Trans.trans hab (List.rel_of_sorted_cons hs x h)
        · simp only [if_neg hPa]
      · rw [show List.orderedInsert r a (b :: M) =
          (if r a b then a :: b :: M else b :: List.orderedInsert r a M) from rfl,
          if_neg hab, List.filter_cons,
          filter_orderedInsert r P a M hsM, List.filter_cons]
        by_cases hPa : P a = true <;> by_cases hPb : P b = true
        · simp only [if_pos hPa, if_pos hPb]
          rw [show List.orderedInsert r a (b :: M.filter P) =
              (if r a b then a :: b :: M.filter P
               else b :: List.orderedInsert r a (M.filter P)) from rfl,
            if_neg hab]
        · simp only [if_pos hPa, if_neg hPb]
        · simp only [if_neg hPa, if_pos hPb]
        · simp only [if_neg hPa, if_neg hPb]

theorem filter_insertionSort {α : Type} (r : α → α → Prop) [DecidableRel r]
    [IsTotal α r] [IsTrans α r] (P : α → Bool) : ∀ (l : List α),
      (List.insertionSort r l).filter P = List.insertionSort r (l.filter P)
  | [] => rfl
  | a :: l => by
      show (List.orderedInsert r a (List.insertionSort r l)).filter P = _
      rw [filter_orderedInsert r P a _ (List.sorted_insertionSort r l), List.filter_cons]
      by_cases hPa : P a
      · rw [if_pos hPa, if_pos hPa, filter_insertionSort r P l]
        rfl
      · rw [if_neg hPa, if_neg hPa, filter_insertionSort r P l]

/-! ### Tie-order extensionality of sorted lists -/

theorem pair_sublist_total {α : Type} : ∀ (n : List α) (a b : α), a ∈ n → b ∈ n →
    a ≠ b → [a, b] <+ n ∨ [b, a] <+ n
  | [], a, _, ha, _, _ => absurd ha (List.not_mem_nil a)
  | h :: t, a, b, ha, hb, hne => by
      rcases List.mem_cons.mp ha with h₁ | h₁
      · subst h₁
        have hb' : b ∈ t := by
          rcases List.mem_cons.mp hb with h₂ | h₂
          · exact absurd h₂.symm hne
          · exact h₂
        exact Or.inl (List.Sublist.cons₂ a (List.singleton_sublist.mpr hb'))
      · rcases List.mem_cons.mp hb with h₂ | h₂
        · subst h₂
          exact Or.inr (List.Sublist.cons₂ b (List.singleton_sublist.mpr h₁))
        · rcases pair_sublist_total t a b h₁ h₂ hne with h | h
          · exact Or.inl (h.cons _)
          · exact Or.inr (h.cons _)

theorem pair_sublist_antisymm {α : Type} : ∀ (n : List α), n.Nodup →
    ∀ a b : α, [a, b] <+ n → [b, a] <+ n → a = b
  | [], _, a, b, h, _ => by cases h
  | h :: t, hnd, a, b, h₁, h₂ => by
      have hnd' := List.pairwise_cons.mp hnd
      rcases List.sublist_cons_iff.mp h₁ with hh₁ | ⟨r₁, hr₁, hr₁'⟩
      · rcases List.sublist_cons_iff.mp h₂ with hh₂ | ⟨r₂, hr₂, hr₂'⟩
        · exact pair_sublist_antisymm t hnd'.2 a b hh₁ hh₂
        · have hbt : b ∈ t := hh₁.subset (by simp)
          have hbh : b = h := by
            have := congrArg (fun l => l.headD b) hr₂
            simpa using this
          exact absurd hbt (hbh ▸ fun hc => hnd'.1 h hc rfl)
      · have hah : a = h := by
          have := congrArg (fun l => l.headD a) hr₁
          simpa using this
        rcases List.sublist_cons_iff.mp h₂ with hh₂ | ⟨r₂, hr₂, hr₂'⟩
        · have hat : a ∈ t := hh₂.subset (by simp)
          exact absurd hat (hah ▸ fun hc => hnd'.1 h hc rfl)
        · have hbh : b = h := by
            have := congrArg (fun l => l.headD b) hr₂
            simpa using this
          rw [hah, hbh]

theorem pair_sublist_sortY_of_tie (l : List (Box × Nat)) (hnd : l.Nodup)
    (a b : Box × Nat) (hy : a.1.y0 = b.1.y0)
    (h : [a, b] <+ List.insertionSort yLE l) : [a, b] <+ l := by
  have hnds : (List.insertionSort yLE l).Nodup :=
    (List.perm_insertionSort yLE l).nodup_iff.mpr hnd
  have hne : a ≠ b := by
    have : ([a, b] : List (Box × Nat)).Nodup := hnds.sublist h
    simpa using (List.pairwise_cons.mp this).1 b (by simp)
  have ha : a ∈ l := (List.mem_insertionSort yLE).mp (h.subset (by simp))
  have hb : b ∈ l := (List.mem_insertionSort yLE).mp (h.subset (by simp))
  rcases pair_sublist_total l a b ha hb hne with hgood | hbad
  · exact hgood
  · exfalso
    have : [b, a] <+ List.insertionSort yLE l :=
      List.pair_sublist_insertionSort (by rw [yLE, hy]) hbad
    exact hne (pair_sublist_antisymm _ hnds a b h this)

theorem sorted_tie_ext : ∀ (M₁ M₂ : List (Box × Nat)), M₁.Perm M₂ → M₁.Nodup →
    M₁.Pairwise yLE → M₂.Pairwise yLE →
    (∀ a b : Box × Nat, a.1.y0 = b.1.y0 → [a, b] <+ M₁ → [a, b] <+ M₂) → M₁ = M₂
  | [], M₂, hp, _, _, _, _ => hp.nil_eq
  | a :: t₁, M₂, hp, hnd, hs₁, hs₂, htie => by
      cases M₂ with
      | nil => exact absurd hp.symm.nil_eq (by simp)
      | cons b t₂ =>
          have hnd₂ : (b :: t₂).Nodup := hp.nodup_iff.mp hnd
          have hab : a = b := by
            by_contra hne
            have hb_t₁ : b ∈ t₁ := by
              rcases List.mem_cons.mp (hp.symm.subset (List.mem_cons_self b t₂)) with h | h
              · exact absurd h.symm hne
              · exact h
            have ha_t₂ : a ∈ t₂ := by
              rcases List.mem_cons.mp (hp.subset (List.mem_cons_self a t₁)) with h | h
              · exact absurd h hne
              · exact h
            have hy : a.1.y0 = b.1.y0 :=
              Nat.le_antisymm ((List.pairwise_cons.mp hs₁).1 b hb_t₁)
                ((List.pairwise_cons.mp hs₂).1 a ha_t₂)
            have hsub2 := htie a b hy
              (List.Sublist.cons₂ a (List.singleton_sublist.mpr hb_t₁))
            rcases List.sublist_cons_iff.mp hsub2 with hh | ⟨rr, hrr, hrr'⟩
            · have : b ∈ t₂ := hh.subset (by simp)
              exact (List.pairwise_cons.mp hnd₂).1 b this rfl
            · have : a = b := by
                have := congrArg (fun l => l.headD a) hrr
                simpa using this
              exact hne this
          subst hab
          have ht : t₁.Perm t₂ := hp.cons_inv
          congr 1
          refine sorted_tie_ext t₁ t₂ ht (List.pairwise_cons.mp hnd).2
            hs₁.of_cons hs₂.of_cons ?_
          intro x y hy hxy
          have h2 := htie x y hy (hxy.cons a)
          rcases List.sublist_cons_iff.mp h2 with h | ⟨rr, hrr, hrr'⟩
          · exact h
          · exfalso
            have hxa : x = a := by
              have := congrArg (fun l => l.headD x) hrr
              simpa using this
            have hx_t₁ : x ∈ t₁ := hxy.subset (by simp)
            exact (List.pairwise_cons.mp hnd).1 x hx_t₁ hxa.symm

/-- Re-sorting an already `y`-sorted list first by `x` and then by `y` is the
    identity, provided all equal-`y0` pairs already appear in ascending `x0`
    order. -/
theorem sortY_sortX_of_ord (M : List (Box × Nat)) (hnd : M.Nodup)
    (hsorted : M.Pairwise yLE)
    (hord : ∀ a b : Box × Nat, [a, b] <+ M → a.1.y0 = b.1.y0 → xLE a b) :
    List.insertionSort yLE (List.insertionSort xLE M) = M := by
  refine (sorted_tie_ext M (List.insertionSort yLE (List.insertionSort xLE M))
    ?_ hnd hsorted (List.sorted_insertionSort yLE _) ?_).symm
  · exact ((List.perm_insertionSort yLE _).trans (List.perm_insertionSort xLE M)).symm
  · intro a b hy hab
    have h1 : [a, b] <+ List.insertionSort xLE M :=
      List.pair_sublist_insertionSort (hord a b hab hy) hab
    exact List.pair_sublist_insertionSort (by rw [yLE, hy]) h1

/-! ### Permutation invariance of the projection pipeline -/

theorem projLen_perm (boxes boxes' : List Box) (hp : boxes.Perm boxes') (axis : Nat) :
    projLen boxes axis = projLen boxes' axis := by
  have h1 : ∀ (u v : List Box), u.Perm v → projLen u axis ≤ projLen v axis := by
    intro u v huv
    show List.foldl (fun m b => max m (max (b.coordStart axis) (b.coordEnd axis))) 0 u ≤
      projLen v axis
    refine foldl_max_le (fun b => max (b.coordStart axis) (b.coordEnd axis)) u 0 _
      (Nat.zero_le _) ?_
    intro b hb
    exact foldl_max_mem (fun b => max (b.coordStart axis) (b.coordEnd axis)) v 0 b
      (huv.subset hb)
  exact Nat.le_antisymm (h1 _ _ hp) (h1 _ _ hp.symm)

theorem projection_perm (boxes boxes' : List Box) (hp : boxes.Perm boxes')
    (axis : Nat) : projection_by_bboxes boxes axis = projection_by_bboxes boxes' axis := by
  have hlen : projLen boxes axis = projLen boxes' axis := projLen_perm _ _ hp axis
  apply List.ext_getElem
  · rw [projection_length, projection_length, hlen]
  · intro i h₁ h₂
    rw [← List.getD_eq_getElem (projection_by_bboxes boxes axis) 0 h₁,
      ← List.getD_eq_getElem (projection_by_bboxes boxes' axis) 0 h₂,
      projection_getD boxes axis i (by rwa [projection_length] at h₁),
      projection_getD boxes' axis i (by rwa [projection_length] at h₂)]
    exact hp.countP_eq _

/-! ### Which pairs an output can mention -/

theorem mem_xyCut_exists_pair (fuel : Nat) (n : List (Box × Nat)) (a : Nat)
    (ha : a ∈ xyCutFuel fuel n) : ∃ q ∈ n, q.2 = a := by
  have h1 : 0 < (xyCutFuel fuel n).count a := List.count_pos_iff.mpr ha
  have h2 := xyCut_count_le a fuel n
  have h3 : 0 < n.countP (fun p => p.2 == a) := by omega
  obtain ⟨q, hq, hqa⟩ := List.countP_pos_iff.mp h3
  exact ⟨q, hq, by simpa using hqa⟩

theorem mem_bandOut_exists_pair (fuel : Nat) (L : List (Box × Nat)) (r : Nat × Nat)
    (a : Nat) (ha : a ∈ bandOut (xyCutFuel fuel) L r) :
    ∃ q ∈ bandChunk L r, q.2 = a := by
  have h1 : 0 < (bandOut (xyCutFuel fuel) L r).count a := List.count_pos_iff.mpr ha
  have h2 := bandOut_count_le a fuel (fun ps => xyCut_count_le a fuel ps) L r
  have h3 : 0 < (bandChunk L r).countP (fun p => p.2 == a) := by omega
  obtain ⟨q, hq, hqa⟩ := List.countP_pos_iff.mp h3
  exact ⟨q, hq, by simpa using hqa⟩

theorem reorder_bandOut_mem (l L : List (Box × Nat)) (hnd : (l.map Prod.snd).Nodup)
    (hLperm : L.Perm l) (fuel : Nat) (r' : Nat × Nat) (q : Box × Nat)
    (hq : q ∈ reorderByOut l (bandOut (xyCutFuel fuel) L r')) :
    q ∈ bandChunk L r' := by
  have hql : q ∈ l := reorder_mem _ _ _ hq
  obtain ⟨i, hi, hfind⟩ := List.mem_filterMap.mp hq
  have hqi : q.2 = i := by simpa using List.find?_some hfind
  obtain ⟨q', hq', hq'i⟩ := mem_bandOut_exists_pair fuel L r' i hi
  have hq'l : q' ∈ l := hLperm.subset (List.mem_filter.mp hq').1
  have heq : q' = q := pair_eq_of_snd_eq l hnd q' q hq'l hql (by rw [hq'i, hqi])
  exact heq ▸ hq'

theorem reorder_out_mem (l n : List (Box × Nat)) (hnd : (l.map Prod.snd).Nodup)
    (hn : ∀ q ∈ n, q ∈ l) (fuel : Nat) (q : Box × Nat)
    (hq : q ∈ reorderByOut l (xyCutFuel fuel n)) : q ∈ n := by
  have hql : q ∈ l := reorder_mem _ _ _ hq
  obtain ⟨i, hi, hfind⟩ := List.mem_filterMap.mp hq
  have hqi : q.2 = i := by simpa using List.find?_some hfind
  obtain ⟨q', hq', hq'i⟩ := mem_xyCut_exists_pair fuel n i hi
  have heq : q' = q := pair_eq_of_snd_eq l hnd q' q (hn q' hq') hql (by rw [hq'i, hqi])
  exact heq ▸ hq'

theorem runs_nodup (arr : List Nat) (mv mg : Int) (S E : List Nat)
    (hs : split_projection_profile arr mv mg = some (S, E)) : (S.zip E).Nodup := by
  have hpw := split_runs_pairwise arr mv mg S E hs
  have hlt := split_runs_lt arr mv mg S E hs
  refine List.Pairwise.imp_of_mem ?_ hpw
  intro a b ha _ hle he
  have h1 := hlt a ha
  rw [he] at h1 hle
  omega

theorem flatten_map_select {γ : Type} (g : Nat × Nat → List γ) :
    ∀ (R : List (Nat × Nat)), R.Nodup → ∀ r ∈ R,
      (∀ r' ∈ R, r' ≠ r → g r' = []) → (R.map g).flatten = g r
  | [], _, r, hr, _ => absurd hr (List.not_mem_nil r)
  | r₀ :: R, hnd, r, hr, hz => by
      have hnd' := List.pairwise_cons.mp hnd
      rw [List.map_cons, List.flatten_cons]
      rcases List.mem_cons.mp hr with h | h
      · subst h
        have hRz : ∀ m ∈ R.map g, m = [] := by
          intro m hm
          obtain ⟨r', hr', hr'm⟩ := List.mem_map.mp hm
          rw [← hr'm]
          refine hz r' (List.mem_cons_of_mem _ hr') ?_
          intro he
          exact hnd'.1 r' hr' he.symm
        rw [List.flatten_eq_nil_iff.mpr hRz, List.append_nil]
      · have hne : r₀ ≠ r := by
          intro he
          exact hnd'.1 r h he
        rw [hz r₀ (List.mem_cons_self _ _) hne, List.nil_append]
        exact flatten_map_select g R hnd'.2 r h
          (fun r' hr' hne' => hz r' (List.mem_cons_of_mem _ hr') hne')

/-- The band slice of the reordered output: filtering the reordered full
    output by one band's interval recovers exactly that band's reordered
    output. -/
theorem filter_reorder_bandOut (l L : List (Box × Nat))
    (hnd : (l.map Prod.snd).Nodup) (hLperm : L.Perm l) (fuel : Nat) (S E : List Nat)
    (hs : split_projection_profile (projection_by_bboxes (L.map Prod.fst) 1) 0 1 =
      some (S, E)) (r : Nat × Nat) (hr : r ∈ S.zip E) :
    (reorderByOut l
        (((S.zip E).map (bandOut (xyCutFuel fuel) L)).flatten)).filter
      (fun p => decide (r.1 ≤ p.1.y0 ∧ p.1.y0 < r.2)) =
    reorderByOut l (bandOut (xyCutFuel fuel) L r) := by
  rw [reorder_flatten, List.filter_flatten, List.map_map, List.map_map]
  refine (flatten_map_select _ (S.zip E) (runs_nodup _ 0 1 S E hs) r hr ?_).trans ?_
  · intro r' hr' hne
    simp only [Function.comp]
    rw [List.filter_eq_nil_iff]
    intro q hq
    have hqc : q ∈ bandChunk L r' := reorder_bandOut_mem l L hnd hLperm fuel r' q hq
    have hq' := (List.mem_filter.mp hqc).2
    rw [decide_eq_true_eq] at hq'
    intro hP
    rw [decide_eq_true_eq] at hP
    exact hne (split_runs_unique _ 0 1 S E hs q.1.y0 r' hr' r hr hq' hP)
  · simp only [Function.comp]
    rw [List.filter_eq_self]
    intro q hq
    have hqc : q ∈ bandChunk L r := reorder_bandOut_mem l L hnd hLperm fuel r q hq
    exact (List.mem_filter.mp hqc).2

/-- The column slice of a reordered band output: filtering by one column's
    interval recovers exactly that column's reordered output. -/
theorem filter_reorder_colOut (l xChunk : List (Box × Nat))
    (hnd : (l.map Prod.snd).Nodup) (hxl : ∀ q ∈ xChunk, q ∈ l) (fuel : Nat)
    (xs xe : List Nat)
    (hsx : split_projection_profile (projection_by_bboxes (xChunk.map Prod.fst) 0) 0 1 =
      some (xs, xe)) (c : Nat × Nat) (hc : c ∈ xs.zip xe) :
    (reorderByOut l
        (((xs.zip xe).map (fun c' => xyCutFuel fuel (colChunk xChunk c'))).flatten)).filter
      (fun p => decide (c.1 ≤ p.1.x0 ∧ p.1.x0 < c.2)) =
    reorderByOut l (xyCutFuel fuel (colChunk xChunk c)) := by
  rw [reorder_flatten, List.filter_flatten, List.map_map, List.map_map]
  refine (flatten_map_select _ (xs.zip xe) (runs_nodup _ 0 1 xs xe hsx) c hc ?_).trans ?_
  · intro c' hc' hne
    simp only [Function.comp]
    rw [List.filter_eq_nil_iff]
    intro q hq
    have hqc : q ∈ colChunk xChunk c' :=
      reorder_out_mem l (colChunk xChunk c') hnd
        (fun p hp => hxl p (List.mem_filter.mp hp).1) fuel q hq
    have hq' := (List.mem_filter.mp hqc).2
    rw [decide_eq_true_eq] at hq'
    intro hP
    rw [decide_eq_true_eq] at hP
    exact hne (split_runs_unique _ 0 1 xs xe hsx q.1.x0 c' hc' c hc hq' hP)
  · simp only [Function.comp]
    rw [List.filter_eq_self]
    intro q hq
    have hqc : q ∈ colChunk xChunk c :=
      reorder_out_mem l (colChunk xChunk c) hnd
        (fun p hp => hxl p (List.mem_filter.mp hp).1) fuel q hq
    exact (List.mem_filter.mp hqc).2

theorem xyCut_congr_sortY (n₁ n₂ : List (Box × Nat))
    (h : List.insertionSort yLE n₂ = List.insertionSort yLE n₁) :
    recursive_xy_cut n₂ = recursive_xy_cut n₁ := by
  have hlen : n₂.length = n₁.length := by
    have h2 := List.length_insertionSort yLE n₂
    have h1 := List.length_insertionSort yLE n₁
    rw [← h2, ← h1, h]
  rw [recursive_xy_cut, recursive_xy_cut, hlen]
  cases hk : n₁.length with
  | zero => rfl
  | succ k => rw [xyCutFuel_succ, xyCutFuel_succ, h]

/-! ### Tie order: equal-`y0` pairs appear in ascending `x0` order -/

/-- Every two equal-`y0` elements occur in ascending `x0` order. -/
def TieOrd (m : List (Box × Nat)) : Prop :=
  ∀ a b : Box × Nat, [a, b] <+ m → a.1.y0 = b.1.y0 → xLE a b

theorem pair_eq_append {γ : Type} (a b : γ) (u v : List γ) (h : u ++ v = [a, b]) :
    (u = [] ∧ v = [a, b]) ∨ (u = [a] ∧ v = [b]) ∨ (u = [a, b] ∧ v = []) := by
  match u with
  | [] => exact Or.inl ⟨rfl, h⟩
  | [x] =>
      refine Or.inr (Or.inl ?_)
      rw [List.cons_append, List.nil_append] at h
      injection h with h1 h2
      exact ⟨by rw [h1], h2⟩
  | x :: y :: u' =>
      refine Or.inr (Or.inr ?_)
      rw [List.cons_append, List.cons_append] at h
      injection h with h1 h2
      injection h2 with h2 h3
      have h4 := List.append_eq_nil.mp h3
      exact ⟨by rw [h1, h2, h4.1], h4.2⟩

theorem tieOrd_nil : TieOrd [] := by
  intro a b h _
  simp at h

theorem tieOrd_of_sublist (m m' : List (Box × Nat)) (hs : m' <+ m) (h : TieOrd m) :
    TieOrd m' :=
  fun a b hab hy => h a b (hab.trans hs) hy

theorem tieOrd_of_sorted_x (m : List (Box × Nat)) (hs : m.Pairwise xLE) : TieOrd m := by
  intro a b hab _
  have hp : ([a, b] : List (Box × Nat)).Pairwise xLE := List.Pairwise.sublist hab hs
  exact (List.pairwise_cons.mp hp).1 b (by simp)

theorem tieOrd_flatten : ∀ (Ls : List (List (Box × Nat))),
    (∀ L' ∈ Ls, TieOrd L') →
    Ls.Pairwise (fun L₁ L₂ => ∀ a ∈ L₁, ∀ b ∈ L₂, a.1.y0 = b.1.y0 → xLE a b) →
    TieOrd Ls.flatten
  | [], _, _ => tieOrd_nil
  | L₀ :: Ls, hall, hcross => by
      intro a b hab hy
      rw [List.flatten_cons] at hab
      obtain ⟨u, v, huv, hu, hv⟩ := List.sublist_append_iff.mp hab
      rcases pair_eq_append a b u v huv.symm with ⟨hu', hv'⟩ | ⟨hu', hv'⟩ | ⟨hu', hv'⟩
      · subst hu'
        subst hv'
        exact tieOrd_flatten Ls (fun L hL => hall L (List.mem_cons_of_mem _ hL))
          (List.pairwise_cons.mp hcross).2 a b hv hy
      · subst hu'
        subst hv'
        have ha : a ∈ L₀ := hu.subset (by simp)
        have hb : b ∈ Ls.flatten := hv.subset (by simp)
        obtain ⟨L', hL', hbL'⟩ := List.mem_flatten.mp hb
        exact (List.pairwise_cons.mp hcross).1 L' hL' a ha b hbL' hy
      · subst hu'
        exact hall L₀ (List.mem_cons_self _ _) a b hu hy

/-- A `y`-sorted band chunk of a tie-ordered list is tie-ordered. -/
theorem tieOrd_bandChunk (n : List (Box × Nat)) (hnd : n.Nodup) (hord : TieOrd n)
    (r : Nat × Nat) : TieOrd (bandChunk (List.insertionSort yLE n) r) := by
  intro a b hab hy
  have h1 : [a, b] <+ List.insertionSort yLE n :=
    hab.trans (List.filter_sublist _)
  exact hord a b (pair_sublist_sortY_of_tie n hnd a b hy h1) hy

theorem bandChunk_subset_base (n : List (Box × Nat)) (r : Nat × Nat) (q : Box × Nat)
    (hq : q ∈ bandChunk (List.insertionSort yLE n) r) : q ∈ n :=
  (List.mem_insertionSort yLE).mp (List.mem_filter.mp hq).1

theorem colChunk_subset_chunk (chunk : List (Box × Nat)) (c : Nat × Nat) (q : Box × Nat)
    (hq : q ∈ colChunk (List.insertionSort xLE chunk) c) : q ∈ chunk :=
  (List.mem_insertionSort xLE).mp (List.mem_filter.mp hq).1

theorem chunk_snd_nodup (n : List (Box × Nat)) (hnd : (n.map Prod.snd).Nodup)
    (r : Nat × Nat) :
    ((bandChunk (List.insertionSort yLE n) r).map Prod.snd).Nodup := by
  have h1 : ((List.insertionSort yLE n).map Prod.snd).Nodup :=
    ((List.perm_insertionSort yLE n).map Prod.snd).nodup_iff.mpr hnd
  exact List.Nodup.sublist ((List.filter_sublist _).map Prod.snd) h1

theorem colChunk_snd_nodup (chunk : List (Box × Nat))
    (hnd : (chunk.map Prod.snd).Nodup) (c : Nat × Nat) :
    ((colChunk (List.insertionSort xLE chunk) c).map Prod.snd).Nodup := by
  have h1 : ((List.insertionSort xLE chunk).map Prod.snd).Nodup :=
    ((List.perm_insertionSort xLE chunk).map Prod.snd).nodup_iff.mpr hnd
  exact List.Nodup.sublist ((List.filter_sublist _).map Prod.snd) h1

/-- The reading-order output, rearranged into pairs, preserves tie order:
    if the input lists equal-`y0` pairs in ascending `x0` order, so does the
    output order. -/
theorem xyCut_tieOrd : ∀ (fuel : Nat) (n : List (Box × Nat)),
    n.length ≤ fuel → (∀ p ∈ n, p.1.WF) → (n.map Prod.snd).Nodup → TieOrd n →
    TieOrd (reorderByOut n (recursive_xy_cut n))
  | 0, n, hfuel, _, _, _ => by
      have hnil : n = [] := List.eq_nil_of_length_eq_zero (by omega)
      subst hnil
      exact tieOrd_nil
  | fuel + 1, n, hfuel, hwf, hnd, hord => by
      by_cases hnil : n = []
      · subst hnil
        exact tieOrd_nil
      · have hpos : 0 < n.length := List.length_pos.mpr hnil
        obtain ⟨m, hm⟩ : ∃ m, n.length = m + 1 := ⟨n.length - 1, by omega⟩
        obtain ⟨p₀, hp₀⟩ := List.exists_mem_of_ne_nil n hnil
        have hp₀L : p₀ ∈ List.insertionSort yLE n := (List.mem_insertionSort yLE).mpr hp₀
        cases hsy : split_projection_profile
            (projection_by_bboxes ((List.insertionSort yLE n).map Prod.fst) 1) 0 1 with
        | none =>
            exact absurd hsy
              (split_some_of_mem (List.insertionSort yLE n) 1 p₀ hp₀L
                (wf_coord_y p₀ (hwf p₀ hp₀)))
        | some SE =>
            obtain ⟨ys, ye⟩ := SE
            have hout : recursive_xy_cut n =
                ((ys.zip ye).map
                  (bandOut (xyCutFuel m) (List.insertionSort yLE n))).flatten := by
              rw [recursive_xy_cut, hm,
                xyCutFuel_succ_some m n ys ye hsy]
            rw [hout, reorder_flatten, List.map_map]
            apply tieOrd_flatten
            · intro piece hpiece
              obtain ⟨r, hr, hpe⟩ := List.mem_map.mp hpiece
              rw [← hpe]
              simp only [Function.comp]
              cases hsx : split_projection_profile
                  (projection_by_bboxes
                    ((List.insertionSort xLE
                      (bandChunk (List.insertionSort yLE n) r)).map Prod.fst) 0) 0 1 with
              | none =>
                  rw [bandOut_none _ _ _ hsx]
                  exact tieOrd_nil
              | some SE2 =>
                  obtain ⟨xs, xe⟩ := SE2
                  by_cases hleaf : xs.length = 1
                  · rw [bandOut_leaf _ _ _ xs xe hsx hleaf,
                      reorder_map_snd_self n hnd _ (bandChunk_subset_base n r)]
                    exact tieOrd_bandChunk n (hnd.of_map _) hord r
                  · rw [bandOut_rec _ _ _ xs xe hsx hleaf,
                      reorder_flatten, List.map_map]
                    have h2 : 2 ≤ xs.length := by
                      have hne := (split_lengths _ 0 1 xs xe hsx).2.1
                      have : xs.length ≠ 0 :=
                        fun hz => hne (List.eq_nil_of_length_eq_zero hz)
                      omega
                    have hxlen : (List.insertionSort xLE
                        (bandChunk (List.insertionSort yLE n) r)).length ≤ n.length := by
                      rw [List.length_insertionSort]
                      calc (bandChunk (List.insertionSort yLE n) r).length
                          ≤ (List.insertionSort yLE n).length := List.length_filter_le _ _
                        _ = n.length := List.length_insertionSort _ _
                    apply tieOrd_flatten
                    · intro piece2 hp2
                      obtain ⟨c, hc, hpe2⟩ := List.mem_map.mp hp2
                      rw [← hpe2]
                      simp only [Function.comp]
                      have hstrict := axisChunk_strict _ 0 xs xe hsx h2 c hc
                      have hcollen : (colChunk (List.insertionSort xLE
                          (bandChunk (List.insertionSort yLE n) r)) c).length ≤
                          m := by
                        rw [colChunk_eq_axisChunk]
                        omega
                      have hcol_sub : ∀ q ∈ colChunk (List.insertionSort xLE
                          (bandChunk (List.insertionSort yLE n) r)) c, q ∈ n := by
                        intro q hq
                        exact bandChunk_subset_base n r q
                          (colChunk_subset_chunk _ c q hq)
                      have hcol_nd : ((colChunk (List.insertionSort xLE
                          (bandChunk (List.insertionSort yLE n) r)) c).map Prod.snd).Nodup :=
                        colChunk_snd_nodup _ (chunk_snd_nodup n hnd r) c
                      have hcol_wf : ∀ q ∈ colChunk (List.insertionSort xLE
                          (bandChunk (List.insertionSort yLE n) r)) c, q.1.WF :=
                        fun q hq => hwf q (hcol_sub q hq)
                      have h1 : reorderByOut n (xyCutFuel m
                          (colChunk (List.insertionSort xLE
                            (bandChunk (List.insertionSort yLE n) r)) c)) =
                          reorderByOut (colChunk (List.insertionSort xLE
                            (bandChunk (List.insertionSort yLE n) r)) c)
                            (xyCutFuel m
                              (colChunk (List.insertionSort xLE
                                (bandChunk (List.insertionSort yLE n) r)) c)) := by
                        refine (reorder_congr_sub n _ hnd hcol_nd hcol_sub _ ?_).symm
                        intro i hi
                        exact mem_xyCut_exists_pair _ _ i hi
                      rw [h1, xyCutFuel_irrel m (colChunk (List.insertionSort xLE
                          (bandChunk (List.insertionSort yLE n) r)) c).length _
                          hcollen (Nat.le_refl _)]
                      rw [show xyCutFuel (colChunk (List.insertionSort xLE
                          (bandChunk (List.insertionSort yLE n) r)) c).length
                          (colChunk (List.insertionSort xLE
                            (bandChunk (List.insertionSort yLE n) r)) c) =
                          recursive_xy_cut (colChunk (List.insertionSort xLE
                            (bandChunk (List.insertionSort yLE n) r)) c) from rfl]
                      refine xyCut_tieOrd fuel _ (by omega) hcol_wf hcol_nd ?_
                      refine tieOrd_of_sublist _ _ (List.filter_sublist _) ?_
                      exact tieOrd_of_sorted_x _ (List.sorted_insertionSort xLE _)
                    · rw [List.pairwise_map]
                      have hpw := split_runs_pairwise _ 0 1 xs xe hsx
                      refine List.Pairwise.imp_of_mem ?_ hpw
                      intro c c' hcm hcm' hle
                      intro a ha b hb _
                      simp only [Function.comp] at ha hb
                      have hac : a ∈ colChunk (List.insertionSort xLE
                          (bandChunk (List.insertionSort yLE n) r)) c := by
                        refine reorder_out_mem n _ hnd ?_ _ a ha
                        intro q hq
                        exact bandChunk_subset_base n r q (colChunk_subset_chunk _ c q hq)
                      have hbc : b ∈ colChunk (List.insertionSort xLE
                          (bandChunk (List.insertionSort yLE n) r)) c' := by
                        refine reorder_out_mem n _ hnd ?_ _ b hb
                        intro q hq
                        exact bandChunk_subset_base n r q (colChunk_subset_chunk _ c' q hq)
                      have ha' := (List.mem_filter.mp hac).2
                      have hb' := (List.mem_filter.mp hbc).2
                      rw [decide_eq_true_eq] at ha' hb'
                      show a.1.x0 ≤ b.1.x0
                      omega
            · rw [List.pairwise_map]
              have hpw := split_runs_pairwise _ 0 1 ys ye hsy
              refine List.Pairwise.imp_of_mem ?_ hpw
              intro r r' hrm hrm' hle
              intro a ha b hb hy
              simp only [Function.comp] at ha hb
              have hac : a ∈ bandChunk (List.insertionSort yLE n) r :=
                reorder_bandOut_mem n _ hnd (List.perm_insertionSort yLE n) _ r a ha
              have hbc : b ∈ bandChunk (List.insertionSort yLE n) r' :=
                reorder_bandOut_mem n _ hnd (List.perm_insertionSort yLE n) _ r' b hb
              have ha' := (List.mem_filter.mp hac).2
              have hb' := (List.mem_filter.mp hbc).2
              rw [decide_eq_true_eq] at ha' hb'
              exfalso
              omega

theorem xyCut_idem_fueled : ∀ (fuel : Nat) (l : List (Box × Nat)),
    l.length ≤ fuel → (∀ p ∈ l, p.1.WF) → (l.map Prod.snd).Nodup →
    recursive_xy_cut (reorderByOut l (recursive_xy_cut l)) = recursive_xy_cut l
  | 0, l, hfuel, _, _ => by
      have hnil : l = [] := List.eq_nil_of_length_eq_zero (by omega)
      subst hnil
      rfl
  | fuel + 1, l, hfuel, hwf, hnd => by
      by_cases hnil : l = []
      · subst hnil
        rfl
      · have hpos : 0 < l.length := List.length_pos.mpr hnil
        obtain ⟨m, hm⟩ : ∃ m, l.length = m + 1 := ⟨l.length - 1, by omega⟩
        obtain ⟨p₀, hp₀⟩ := List.exists_mem_of_ne_nil l hnil
        have hp₀L : p₀ ∈ List.insertionSort yLE l := (List.mem_insertionSort yLE).mpr hp₀
        cases hsy : split_projection_profile
            (projection_by_bboxes ((List.insertionSort yLE l).map Prod.fst) 1) 0 1 with
        | none =>
            exact absurd hsy (split_some_of_mem (List.insertionSort yLE l) 1 p₀ hp₀L
              (wf_coord_y p₀ (hwf p₀ hp₀)))
        | some SE =>
            obtain ⟨ys, ye⟩ := SE
            have hout : recursive_xy_cut l =
                ((ys.zip ye).map
                  (bandOut (xyCutFuel m) (List.insertionSort yLE l))).flatten := by
              rw [recursive_xy_cut, hm, xyCutFuel_succ_some m l ys ye hsy]
            have hperm_out : (recursive_xy_cut l).Perm (l.map Prod.snd) :=
              recursive_xy_cut_permutation l hwf hnd
            have hl₂perm : (reorderByOut l (recursive_xy_cut l)).Perm l :=
              reorder_perm_sub l l hnd (fun q hq => hq) hnd _ hperm_out
            have hl₂len : (reorderByOut l (recursive_xy_cut l)).length = m + 1 := by
              rw [hl₂perm.length_eq, hm]
            have hL₂perm : (List.insertionSort yLE
                (reorderByOut l (recursive_xy_cut l))).Perm l :=
              (List.perm_insertionSort yLE _).trans hl₂perm
            have hproj₂ : projection_by_bboxes
                ((List.insertionSort yLE (reorderByOut l (recursive_xy_cut l))).map
                  Prod.fst) 1 =
                projection_by_bboxes ((List.insertionSort yLE l).map Prod.fst) 1 := by
              refine projection_perm _ _ ?_ 1
              exact (hL₂perm.trans (List.perm_insertionSort yLE l).symm).map Prod.fst
            have hsy₂ : split_projection_profile
                (projection_by_bboxes
                  ((List.insertionSort yLE (reorderByOut l (recursive_xy_cut l))).map
                    Prod.fst) 1) 0 1 = some (ys, ye) := by
              rw [hproj₂]
              exact hsy
            have hlhs : recursive_xy_cut (reorderByOut l (recursive_xy_cut l)) =
                ((ys.zip ye).map (bandOut (xyCutFuel m)
                  (List.insertionSort yLE (reorderByOut l (recursive_xy_cut l))))).flatten := by
              rw [recursive_xy_cut, hl₂len, xyCutFuel_succ_some m _ ys ye hsy₂]
            rw [hlhs]
            conv_rhs => rw [hout]
            congr 1
            apply List.map_congr_left
            intro r hr
            have hKEY1 : bandChunk
                (List.insertionSort yLE (reorderByOut l (recursive_xy_cut l))) r =
                List.insertionSort yLE (reorderByOut l
                  (bandOut (xyCutFuel m) (List.insertionSort yLE l) r)) := by
              rw [show bandChunk
                  (List.insertionSort yLE (reorderByOut l (recursive_xy_cut l))) r =
                (List.insertionSort yLE (reorderByOut l (recursive_xy_cut l))).filter
                  (fun p => decide (r.1 ≤ p.1.y0 ∧ p.1.y0 < r.2)) from rfl]
              rw [filter_insertionSort yLE _ (reorderByOut l (recursive_xy_cut l))]
              refine congrArg (List.insertionSort yLE) ?_
              rw [hout]
              exact filter_reorder_bandOut l (List.insertionSort yLE l) hnd
                (List.perm_insertionSort yLE l) m ys ye hsy r hr
            have hchunk_sub : ∀ q ∈ bandChunk (List.insertionSort yLE l) r, q ∈ l :=
              bandChunk_subset_base l r
            have hchunk_nd := chunk_snd_nodup l hnd r
            have hchunk_wf : ∀ q ∈ bandChunk (List.insertionSort yLE l) r, q.1.WF :=
              fun q hq => hwf q (hchunk_sub q hq)
            have hyslen : (List.insertionSort yLE l).length ≤ l.length := by
              rw [List.length_insertionSort]
            have hys_wf : ∀ p ∈ List.insertionSort yLE l, p.1.WF :=
              fun p hp => hwf p ((List.mem_insertionSort yLE).mp hp)
            have houtr_perm : (bandOut (xyCutFuel m) (List.insertionSort yLE l) r).Perm
                ((bandChunk (List.insertionSort yLE l) r).map Prod.snd) := by
              rw [List.perm_iff_count]
              intro a
              rw [count_map_snd]
              exact bandOut_count_eq a m l.length (by omega)
                (fun ps h1 h2 => xyCut_count_eq a m ps h1 h2)
                (List.insertionSort yLE l) hyslen hys_wf r
            have hmr_perm : (reorderByOut l
                (bandOut (xyCutFuel m) (List.insertionSort yLE l) r)).Perm
                (bandChunk (List.insertionSort yLE l) r) :=
              reorder_perm_sub l _ hnd hchunk_sub hchunk_nd _ houtr_perm
            have hchunk₂_perm : (bandChunk
                (List.insertionSort yLE (reorderByOut l (recursive_xy_cut l))) r).Perm
                (bandChunk (List.insertionSort yLE l) r) := by
              rw [hKEY1]
              exact (List.perm_insertionSort yLE _).trans hmr_perm
            have hprojx : projection_by_bboxes
                ((List.insertionSort xLE (bandChunk
                  (List.insertionSort yLE (reorderByOut l (recursive_xy_cut l))) r)).map
                    Prod.fst) 0 =
                projection_by_bboxes
                ((List.insertionSort xLE
                  (bandChunk (List.insertionSort yLE l) r)).map Prod.fst) 0 := by
              refine projection_perm _ _ ?_ 0
              exact (((List.perm_insertionSort xLE _).trans hchunk₂_perm).trans
                (List.perm_insertionSort xLE _).symm).map Prod.fst
            cases hsx : split_projection_profile
                (projection_by_bboxes
                  ((List.insertionSort xLE
                    (bandChunk (List.insertionSort yLE l) r)).map Prod.fst) 0) 0 1 with
            | none =>
                have hsx₂ : split_projection_profile
                    (projection_by_bboxes
                      ((List.insertionSort xLE (bandChunk (List.insertionSort yLE
                        (reorderByOut l (recursive_xy_cut l))) r)).map Prod.fst) 0) 0 1 =
                    none := by
                  rw [hprojx]
                  exact hsx
                rw [bandOut_none _ _ _ hsx₂, bandOut_none _ _ _ hsx]
            | some SE2 =>
                obtain ⟨xs, xe⟩ := SE2
                have hsx₂ : split_projection_profile
                    (projection_by_bboxes
                      ((List.insertionSort xLE (bandChunk (List.insertionSort yLE
                        (reorderByOut l (recursive_xy_cut l))) r)).map Prod.fst) 0) 0 1 =
                    some (xs, xe) := by
                  rw [hprojx]
                  exact hsx
                by_cases hleaf : xs.length = 1
                · rw [bandOut_leaf _ _ _ xs xe hsx₂ hleaf,
                    bandOut_leaf _ _ _ xs xe hsx hleaf]
                  refine congrArg (List.map Prod.snd) ?_
                  rw [hKEY1, bandOut_leaf _ _ _ xs xe hsx hleaf,
                    reorder_map_snd_self l hnd _ hchunk_sub]
                  exact List.Sorted.insertionSort_eq
                    (List.Pairwise.filter _ (List.sorted_insertionSort yLE l))
                · rw [bandOut_rec _ _ _ xs xe hsx₂ hleaf,
                    bandOut_rec _ _ _ xs xe hsx hleaf]
                  congr 1
                  apply List.map_congr_left
                  intro c hc
                  have h2col : 2 ≤ xs.length := by
                    have hne := (split_lengths _ 0 1 xs xe hsx).2.1
                    have : xs.length ≠ 0 := fun hz => hne (List.eq_nil_of_length_eq_zero hz)
                    omega
                  have hstrict := axisChunk_strict _ 0 xs xe hsx h2col c hc
                  have hxchunk_sub : ∀ q ∈ List.insertionSort xLE
                      (bandChunk (List.insertionSort yLE l) r), q ∈ l :=
                    fun q hq => hchunk_sub q ((List.mem_insertionSort xLE).mp hq)
                  have hxchunk_len : (List.insertionSort xLE
                      (bandChunk (List.insertionSort yLE l) r)).length ≤ m + 1 := by
                    rw [List.length_insertionSort]
                    calc (bandChunk (List.insertionSort yLE l) r).length
                        ≤ (List.insertionSort yLE l).length := List.length_filter_le _ _
                      _ = l.length := List.length_insertionSort _ _
                      _ = m + 1 := hm
                  have hcol_len : (colChunk (List.insertionSort xLE
                      (bandChunk (List.insertionSort yLE l) r)) c).length ≤ m := by
                    rw [colChunk_eq_axisChunk]
                    omega
                  have hcol_sub : ∀ q ∈ colChunk (List.insertionSort xLE
                      (bandChunk (List.insertionSort yLE l) r)) c, q ∈ l :=
                    fun q hq => hchunk_sub q (colChunk_subset_chunk _ c q hq)
                  have hcol_nd : ((colChunk (List.insertionSort xLE
                      (bandChunk (List.insertionSort yLE l) r)) c).map Prod.snd).Nodup :=
                    colChunk_snd_nodup _ hchunk_nd c
                  have hcol_wf : ∀ q ∈ colChunk (List.insertionSort xLE
                      (bandChunk (List.insertionSort yLE l) r)) c, q.1.WF :=
                    fun q hq => hwf q (hcol_sub q hq)
                  have hKEY2 : colChunk (List.insertionSort xLE (bandChunk
                      (List.insertionSort yLE (reorderByOut l (recursive_xy_cut l))) r)) c =
                      List.insertionSort xLE (List.insertionSort yLE
                        (reorderByOut l (xyCutFuel m (colChunk (List.insertionSort xLE
                          (bandChunk (List.insertionSort yLE l) r)) c)))) := by
                    rw [show colChunk (List.insertionSort xLE (bandChunk
                        (List.insertionSort yLE (reorderByOut l (recursive_xy_cut l))) r)) c =
                      (List.insertionSort xLE (bandChunk
                        (List.insertionSort yLE (reorderByOut l (recursive_xy_cut l))) r)).filter
                        (fun p => decide (c.1 ≤ p.1.x0 ∧ p.1.x0 < c.2)) from rfl]
                    rw [filter_insertionSort xLE _ _]
                    refine congrArg (List.insertionSort xLE) ?_
                    rw [hKEY1]
                    rw [filter_insertionSort yLE _ _]
                    refine congrArg (List.insertionSort yLE) ?_
                    rw [bandOut_rec _ _ _ xs xe hsx hleaf]
                    exact filter_reorder_colOut l
                      (List.insertionSort xLE (bandChunk (List.insertionSort yLE l) r))
                      hnd hxchunk_sub m xs xe hsx c hc
                  have hswitch : reorderByOut l (xyCutFuel m (colChunk
                      (List.insertionSort xLE (bandChunk (List.insertionSort yLE l) r)) c)) =
                      reorderByOut (colChunk (List.insertionSort xLE
                        (bandChunk (List.insertionSort yLE l) r)) c)
                        (xyCutFuel m (colChunk (List.insertionSort xLE
                          (bandChunk (List.insertionSort yLE l) r)) c)) :=
                    (reorder_congr_sub l _ hnd hcol_nd hcol_sub _
                      (fun i hi => mem_xyCut_exists_pair _ _ i hi)).symm
                  have hfcol : xyCutFuel m (colChunk (List.insertionSort xLE
                      (bandChunk (List.insertionSort yLE l) r)) c) =
                      recursive_xy_cut (colChunk (List.insertionSort xLE
                        (bandChunk (List.insertionSort yLE l) r)) c) :=
                    xyCutFuel_irrel m _ _ hcol_len (Nat.le_refl _)
                  have hmcol_perm : (reorderByOut (colChunk (List.insertionSort xLE
                      (bandChunk (List.insertionSort yLE l) r)) c)
                      (recursive_xy_cut (colChunk (List.insertionSort xLE
                        (bandChunk (List.insertionSort yLE l) r)) c))).Perm
                      (colChunk (List.insertionSort xLE
                        (bandChunk (List.insertionSort yLE l) r)) c) :=
                    reorder_perm_sub _ _ hcol_nd (fun q hq => hq) hcol_nd _
                      (recursive_xy_cut_permutation _ hcol_wf hcol_nd)
                  have hmcol_nodup : (reorderByOut (colChunk (List.insertionSort xLE
                      (bandChunk (List.insertionSort yLE l) r)) c)
                      (recursive_xy_cut (colChunk (List.insertionSort xLE
                        (bandChunk (List.insertionSort yLE l) r)) c))).Nodup :=
                    hmcol_perm.nodup_iff.mpr (hcol_nd.of_map _)
                  have htie : TieOrd (reorderByOut (colChunk (List.insertionSort xLE
                      (bandChunk (List.insertionSort yLE l) r)) c)
                      (recursive_xy_cut (colChunk (List.insertionSort xLE
                        (bandChunk (List.insertionSort yLE l) r)) c))) := by
                    refine xyCut_tieOrd fuel _ (by omega) hcol_wf hcol_nd ?_
                    refine tieOrd_of_sublist _ _ (List.filter_sublist _) ?_
                    exact tieOrd_of_sorted_x _ (List.sorted_insertionSort xLE _)
                  have hS9 : List.insertionSort yLE (List.insertionSort xLE
                      (List.insertionSort yLE (reorderByOut (colChunk (List.insertionSort xLE
                        (bandChunk (List.insertionSort yLE l) r)) c)
                        (recursive_xy_cut (colChunk (List.insertionSort xLE
                          (bandChunk (List.insertionSort yLE l) r)) c))))) =
                      List.insertionSort yLE (reorderByOut (colChunk (List.insertionSort xLE
                        (bandChunk (List.insertionSort yLE l) r)) c)
                        (recursive_xy_cut (colChunk (List.insertionSort xLE
                          (bandChunk (List.insertionSort yLE l) r)) c))) := by
                    refine sortY_sortX_of_ord _ ?_ (List.sorted_insertionSort yLE _) ?_
                    · exact (List.perm_insertionSort yLE _).nodup_iff.mpr hmcol_nodup
                    · intro a b hab hy
                      exact htie a b
                        (pair_sublist_sortY_of_tie _ hmcol_nodup a b hy hab) hy
                  have hcol₂_perm : (colChunk (List.insertionSort xLE (bandChunk
                      (List.insertionSort yLE (reorderByOut l (recursive_xy_cut l))) r)) c).Perm
                      (colChunk (List.insertionSort xLE
                        (bandChunk (List.insertionSort yLE l) r)) c) := by
                    rw [hKEY2, hswitch, hfcol]
                    exact ((List.perm_insertionSort xLE _).trans
                      (List.perm_insertionSort yLE _)).trans hmcol_perm
                  have hcol₂_len : (colChunk (List.insertionSort xLE (bandChunk
                      (List.insertionSort yLE (reorderByOut l (recursive_xy_cut l))) r)) c).length
                      ≤ m := by
                    rw [hcol₂_perm.length_eq]
                    exact hcol_len
                  have hcongr : recursive_xy_cut (colChunk (List.insertionSort xLE (bandChunk
                      (List.insertionSort yLE (reorderByOut l (recursive_xy_cut l))) r)) c) =
                      recursive_xy_cut (reorderByOut (colChunk (List.insertionSort xLE
                        (bandChunk (List.insertionSort yLE l) r)) c)
                        (recursive_xy_cut (colChunk (List.insertionSort xLE
                          (bandChunk (List.insertionSort yLE l) r)) c))) := by
                    apply xyCut_congr_sortY
                    rw [hKEY2, hswitch, hfcol, hS9]
                  calc xyCutFuel m (colChunk (List.insertionSort xLE (bandChunk
                        (List.insertionSort yLE (reorderByOut l (recursive_xy_cut l))) r)) c)
                      = recursive_xy_cut (colChunk (List.insertionSort xLE (bandChunk
                          (List.insertionSort yLE (reorderByOut l (recursive_xy_cut l))) r)) c) :=
                        xyCutFuel_irrel m _ _ hcol₂_len (Nat.le_refl _)
                    _ = recursive_xy_cut (reorderByOut (colChunk (List.insertionSort xLE
                          (bandChunk (List.insertionSort yLE l) r)) c)
                          (recursive_xy_cut (colChunk (List.insertionSort xLE
                            (bandChunk (List.insertionSort yLE l) r)) c))) := hcongr
                    _ = recursive_xy_cut (colChunk (List.insertionSort xLE
                          (bandChunk (List.insertionSort yLE l) r)) c) :=
                        xyCut_idem_fueled fuel _ (by omega) hcol_wf hcol_nd
                    _ = xyCutFuel m (colChunk (List.insertionSort xLE
                          (bandChunk (List.insertionSort yLE l) r)) c) := hfcol.symm

/-! ### C9: idempotence depends on the argsort tie order

`np.argsort` with the default `kind` is documented as not stable: for equal
keys it only promises *some* sorted permutation.  The lemmas below relate
the parametrized recursion `xyCutFuelWith` to the stable instantiation
`xyCutFuel`; the C9 counterexample then exhibits a contract-conforming but
unstable argsort under which re-sorting the reordered output changes the
order, so idempotence over *all* valid inputs is not guaranteed by the
code.  The amended theorem proves idempotence for the stable tie order
(`kind` stable, or any input whose sort keys are untied). -/

theorem bandOutWith_insertionSort (recur : List (Box × Nat) → List Nat)
    (ySorted : List (Box × Nat)) :
    bandOutWith (List.insertionSort xLE) recur ySorted = bandOut recur ySorted := rfl

theorem xyCutFuelWith_succ (sy sx : List (Box × Nat) → List (Box × Nat))
    (fuel : Nat) (pairs : List (Box × Nat)) :
    xyCutFuelWith sy sx (fuel + 1) pairs =
      match split_projection_profile
          (projection_by_bboxes ((sy pairs).map Prod.fst) 1) 0 1 with
      | none => []
      | some (ys, ye) =>
          ((ys.zip ye).map
            (bandOutWith sx (xyCutFuelWith sy sx fuel) (sy pairs))).flatten := rfl

theorem xyCutFuelWith_insertionSort : ∀ (fuel : Nat) (pairs : List (Box × Nat)),
    xyCutFuelWith (List.insertionSort yLE) (List.insertionSort xLE) fuel pairs =
      xyCutFuel fuel pairs
  | 0, _ => rfl
  | fuel + 1, pairs => by
      have hrec : xyCutFuelWith (List.insertionSort yLE) (List.insertionSort xLE) fuel =
          xyCutFuel fuel := funext (fun l => xyCutFuelWith_insertionSort fuel l)
      rw [xyCutFuelWith_succ, xyCutFuel_succ]
      simp only [hrec, bandOutWith_insertionSort]

theorem recursive_xy_cut_with_insertionSort (pairs : List (Box × Nat)) :
    recursive_xy_cut_with (List.insertionSort yLE) (List.insertionSort xLE) pairs =
      recursive_xy_cut pairs :=
  xyCutFuelWith_insertionSort pairs.length pairs

/-- **C9 counterexample.** The default `np.argsort` only promises a
    permutation sorted by the key; it is not stable, so the order of equal
    keys is unspecified.  `antiSortY`/`antiSortX` fulfil that contract —
    for every input they return a sorted permutation — yet resolve ties in
    reverse input order.  Running the cut with them on two well-formed
    boxes with distinct identifiers that share a vertical start, then
    reordering the input by the output and running the cut again, yields a
    different identifier order: idempotence over all valid inputs is not
    guaranteed by the code. -/
theorem unstable_argsort_breaks_idempotence :
    (∀ l : List (Box × Nat),
      (antiSortY l).Perm l ∧ List.Sorted yLE (antiSortY l) ∧
      (antiSortX l).Perm l ∧ List.Sorted xLE (antiSortX l)) ∧
    (∀ p ∈ [((⟨0, 0, 4, 2⟩ : Box), 0), ((⟨2, 0, 6, 2⟩ : Box), 1)], p.1.WF) ∧
    (([((⟨0, 0, 4, 2⟩ : Box), 0), ((⟨2, 0, 6, 2⟩ : Box), 1)].map Prod.snd).Nodup) ∧
    recursive_xy_cut_with antiSortY antiSortX
        (reorderByOut [((⟨0, 0, 4, 2⟩ : Box), 0), ((⟨2, 0, 6, 2⟩ : Box), 1)]
          (recursive_xy_cut_with antiSortY antiSortX
            [((⟨0, 0, 4, 2⟩ : Box), 0), ((⟨2, 0, 6, 2⟩ : Box), 1)])) ≠
      recursive_xy_cut_with antiSortY antiSortX
        [((⟨0, 0, 4, 2⟩ : Box), 0), ((⟨2, 0, 6, 2⟩ : Box), 1)] :=
  ⟨fun l => ⟨(List.perm_insertionSort yLE l.reverse).trans l.reverse_perm,
      List.sorted_insertionSort yLE l.reverse,
      (List.perm_insertionSort xLE l.reverse).trans l.reverse_perm,
      List.sorted_insertionSort xLE l.reverse⟩,
    by decide, by decide, by decide⟩

/-- **C9 (amended).** With a stable argsort (`kind` stable — modeled by
    `List.insertionSort`, to which any argsort is equivalent whenever the
    sort keys are untied), sorting is idempotent: for well-formed boxes
    with distinct identifiers, reordering the (box, identifier) pairs
    according to the output of `recursive_xy_cut` and running the sort
    again on the reordered input reproduces exactly the same identifier
    order — an already-correctly-ordered input is a fixed point. -/
theorem recursive_xy_cut_idempotent (pairs : List (Box × Nat))
    (hwf : ∀ p ∈ pairs, p.1.WF) (hnd : (pairs.map Prod.snd).Nodup) :
    recursive_xy_cut (reorderByOut pairs (recursive_xy_cut pairs)) =
      recursive_xy_cut pairs :=
  xyCut_idem_fueled pairs.length pairs (Nat.le_refl _) hwf hnd

/-- Witness for C9: two side-by-side boxes listed right-before-left; the
    first run swaps them, and re-running on the reordered input keeps the
    same order. -/
theorem recursive_xy_cut_idempotent_witness :
    (∀ p ∈ [((⟨6, 0, 10, 4⟩ : Box), 0), ((⟨0, 0, 4, 4⟩ : Box), 1)], p.1.WF) ∧
    (([((⟨6, 0, 10, 4⟩ : Box), 0), ((⟨0, 0, 4, 4⟩ : Box), 1)].map Prod.snd).Nodup) ∧
    recursive_xy_cut
      (reorderByOut [((⟨6, 0, 10, 4⟩ : Box), 0), ((⟨0, 0, 4, 4⟩ : Box), 1)]
        (recursive_xy_cut [((⟨6, 0, 10, 4⟩ : Box), 0), ((⟨0, 0, 4, 4⟩ : Box), 1)])) =
      recursive_xy_cut [((⟨6, 0, 10, 4⟩ : Box), 0), ((⟨0, 0, 4, 4⟩ : Box), 1)] :=
  ⟨by decide, by decide,
    recursive_xy_cut_idempotent
      [((⟨6, 0, 10, 4⟩ : Box), 0), ((⟨0, 0, 4, 4⟩ : Box), 1)]
      (by decide) (by decide)⟩
